import Mathlib

/-!
Shallow embedding of the miniflow workflow orchestrator (src/model.ts,
src/miniflow.ts, src/utils.ts) and proofs about its step/dependency
graph engine.

Conventions of the embedding:
* JavaScript objects keyed by step name become association lists
  `List (String × _)`; `Map`/`Set` iteration order (insertion order)
  becomes list order.
* Steps refer to their dependencies by name (a `List String`) instead of
  by object reference; a `Flow` owns the single list of steps and all
  lookups go through it.  This is the flat-indexed-store reading of the
  same object graph.
* Thrown exceptions become `Except String`; the mutable in-place updates
  of `Step.clean` / `Step.transition` become flow-to-flow functions.
* `Date` timestamps are kept as their ISO strings, so `StepRun.toJson`
  and `StepRun.fromJson` are identities and `StepRun` doubles as
  `StepRunJson`.
* Recursive procedures whose termination depends on runtime data
  (`Step.clean`, `checkCycles`, the `ancestors` accumulator) take an
  explicit fuel argument; the flow-level entry points pass the fuel the
  finite graph needs, and sufficiency is proved where a claim needs it.
-/

namespace Miniflow

/-- `StepState` from src/model.ts (enum StepState). -/
inductive StepState where
  | none
  | waitingForRun
  | waitingForDep
  | depFailed
  | succeeded
  | running
  | failed
  | disabled
deriving DecidableEq, Repr

/-- `LogMode` from src/model.ts. -/
inductive LogMode where
  | file
  | console
deriving DecidableEq, Repr

/-- `StepRun` from src/model.ts, with `Date`s kept as ISO strings, so this
is also the on-disk `StepRunJson`. -/
structure StepRun where
  startTimestamp : String
  endTimestamp : Option String := Option.none
  exitCode : Option Int := Option.none
  logFile : Option String := Option.none
deriving DecidableEq, Repr

/-- `StepStateJson` from src/model.ts.  The `runs` field is optional because
`Step`'s constructor reads it as `state.runs ?? []`. -/
structure StepStateJson where
  state : StepState
  prevState : Option StepState := Option.none
  runs : Option (List StepRun) := Option.none
deriving DecidableEq, Repr

/-- `StateJson` from src/model.ts: the persisted snapshot.  The JS object
`steps` becomes an association list keyed by step name. -/
structure StateJson where
  version : Int
  steps : List (String × StepStateJson)
deriving DecidableEq, Repr

/-- The value found in a step's `deps` field of the parsed TOML: absent,
an array (of strings), or some other (malformed) value. -/
inductive DepsField where
  | absent
  | arr (l : List String)
  | malformed
deriving DecidableEq, Repr

/-- `StepToml` from src/model.ts.  `extraKeys` stands for whatever keys the
parsed TOML object carries beyond the recognised ones; `ensureOnlyKeys`
reports exactly those. -/
structure StepToml where
  env : Option (List (String × String)) := Option.none
  cmd : String
  cwd : Option String := Option.none
  desc : Option String := Option.none
  deps : DepsField := DepsField.absent
  tags : Option (List String) := Option.none
  log : Option String := Option.none
  extraKeys : List String := []
deriving DecidableEq, Repr

/-- `FlowToml` from src/model.ts; `steps` keyed by step name in declaration
order, `extraKeys` the unrecognised top-level keys. -/
structure FlowToml where
  env : List (String × String) := []
  steps : List (String × StepToml)
  extraKeys : List String := []
deriving DecidableEq, Repr

/-- The in-memory `Step` of src/model.ts.  `deps`, `ancestors`,
`descendants` and `directDescendants` hold step names. -/
structure Step where
  name : String
  env : List (String × String) := []
  cmd : String := ""
  cwd : Option String := Option.none
  desc : Option String := Option.none
  logMode : LogMode := LogMode.file
  tags : List String := []
  deps : List String := []
  state : StepState := StepState.none
  prevState : Option StepState := Option.none
  isDirty : Bool := true
  runs : List StepRun := []
  ancestors : List String := []
  descendants : List String := []
  directDescendants : List String := []
deriving DecidableEq, Repr

/-- The in-memory `Flow` of src/model.ts.  `initialSteps`/`finalSteps`
hold step names. -/
structure Flow where
  env : List (String × String) := []
  steps : List Step
  initialSteps : List String := []
  finalSteps : List String := []
deriving DecidableEq, Repr

/-- `Step.transition` from src/model.ts: no-op when the target equals the
current state; otherwise record `prevState`, set `state`, mark dirty. -/
def Step.transitionF (s : Step) (target : StepState) : Step :=
  if target = s.state then s
  else { s with prevState := some s.state, state := target, isDirty := true }

/-- Look a step up by name (first match), as `stepsByName.get` /
direct object references do in the source. -/
def findStep? (fl : Flow) (n : String) : Option Step :=
  fl.steps.find? (fun s => s.name = n)

/-- Apply `f` to the step(s) named `n`, the embedding of mutating the
step object in place. -/
def modifyStep (fl : Flow) (n : String) (f : Step → Step) : Flow :=
  { fl with steps := fl.steps.map (fun s => if s.name = n then f s else s) }

/-- `step.transition target` performed inside a flow. -/
def transitionStep (fl : Flow) (n : String) (target : StepState) : Flow :=
  modifyStep fl n (fun s => s.transitionF target)

/-- `step.dirty()` performed inside a flow. -/
def dirtyStep (fl : Flow) (n : String) : Flow :=
  modifyStep fl n (fun s => { s with isDirty := true })

/-- `Step.clean` from src/model.ts lines 87-141, with fuel bounding the
depth of the recursion into dependencies.  When the step is dirty it first
cleans every dependency, then re-reads the world and dispatches on its own
state and the dependency states exactly as the source's if-chain does,
and finally clears the dirty flag unconditionally. -/
def cleanStep : Nat → Flow → String → Flow
  | 0, fl, _ => fl
  | Nat.succ fuel, fl, n =>
    match findStep? fl n with
    | Option.none => fl
    | some s =>
      if s.isDirty then
        let fl1 := s.deps.foldl (fun f d => cleanStep fuel f d) fl
        let s1 := (findStep? fl1 n).getD s
        let depStates := s.deps.filterMap (fun d => (findStep? fl1 d).map (fun t => t.state))
        let fl2 :=
          if s1.state = StepState.failed then fl1
          else if s1.state = StepState.disabled then fl1
          else if s1.state = StepState.running then fl1
          else if s1.state = StepState.succeeded then fl1
          else if StepState.failed ∈ depStates ∨ StepState.depFailed ∈ depStates then
            transitionStep fl1 n StepState.depFailed
          else if StepState.running ∈ depStates ∨ StepState.waitingForDep ∈ depStates ∨
                  StepState.waitingForRun ∈ depStates ∨ StepState.disabled ∈ depStates then
            transitionStep fl1 n StepState.waitingForDep
          else if depStates = [] ∧ s1.state = StepState.none then
            transitionStep fl1 n StepState.waitingForRun
          else if depStates = [] then
            modifyStep fl1 n (fun t => t.transitionF t.state)
          else if depStates.all (fun x => x = StepState.succeeded) then
            transitionStep fl1 n StepState.waitingForRun
          else fl1
        modifyStep fl2 n (fun t => { t with isDirty := false })
      else fl

/-- `Flow.clean` from src/model.ts lines 243-247: clean every step, in
declaration order.  The per-step fuel `fl.steps.length` covers any
dependency chain of an acyclic graph. -/
def Flow.clean (fl : Flow) : Flow :=
  (fl.steps.map (fun s => s.name)).foldl (fun f n => cleanStep fl.steps.length f n) fl

/-- `Flow.dirty` from src/model.ts lines 249-253. -/
def Flow.dirtyAll (fl : Flow) : Flow :=
  { fl with steps := fl.steps.map (fun s => { s with isDirty := true }) }

/-- The priority list of the cleaning rule, written following the claim's
(and spec §4.2's) wording, for comparison against `cleanStep`:
`Option.none` means "no transition"; `some t` means "transition to `t`". -/
def specCleanTarget (st : StepState) (ds : List StepState) : Option StepState :=
  if st = StepState.failed ∨ st = StepState.disabled ∨
     st = StepState.running ∨ st = StepState.succeeded then Option.none
  else if StepState.failed ∈ ds ∨ StepState.depFailed ∈ ds then some StepState.depFailed
  else if StepState.running ∈ ds ∨ StepState.waitingForDep ∈ ds ∨
          StepState.waitingForRun ∈ ds ∨ StepState.disabled ∈ ds then
    some StepState.waitingForDep
  else if ds = [] ∧ st = StepState.none then some StepState.waitingForRun
  else if ds = [] then Option.none
  else if ds.all (fun x => x = StepState.succeeded) then some StepState.waitingForRun
  else Option.none

/-! ### Basic lemmas about step lookup and in-place modification -/

theorem find?_map_preserve (l : List Step) (g : Step → Step)
    (hg : ∀ s, (g s).name = s.name) (m : String) :
    (l.map g).find? (fun s => s.name = m) = (l.find? (fun s => s.name = m)).map g := by
  induction l with
  | nil => rfl
  | cons a l ih =>
    by_cases h : a.name = m
    · rw [List.map_cons, List.find?_cons_of_pos, List.find?_cons_of_pos] <;>
        simp [hg, h]
    · rw [List.map_cons, List.find?_cons_of_neg, List.find?_cons_of_neg, ih] <;>
        simp [hg, h]

theorem findStep?_modifyStep (fl : Flow) (n m : String) (f : Step → Step)
    (hf : ∀ s, (f s).name = s.name) :
    findStep? (modifyStep fl n f) m =
      (findStep? fl m).map (fun s => if s.name = n then f s else s) := by
  unfold findStep? modifyStep
  exact find?_map_preserve fl.steps _ (fun s => by by_cases h : s.name = n <;> simp [h, hf]) m

theorem findStep?_name (fl : Flow) (n : String) (s : Step)
    (h : findStep? fl n = some s) : s.name = n := by
  have := List.find?_some h
  simpa using this

theorem findStep?_modifyStep_self (fl : Flow) (n : String) (f : Step → Step)
    (hf : ∀ s, (f s).name = s.name) (s : Step) (h : findStep? fl n = some s) :
    findStep? (modifyStep fl n f) n = some (f s) := by
  rw [findStep?_modifyStep fl n n f hf, h]
  simp [findStep?_name fl n s h]

theorem findStep?_modifyStep_other (fl : Flow) (n m : String) (f : Step → Step)
    (hf : ∀ s, (f s).name = s.name) (hne : m ≠ n) :
    findStep? (modifyStep fl n f) m = findStep? fl m := by
  rw [findStep?_modifyStep fl n m f hf]
  cases h : findStep? fl m with
  | none => rfl
  | some s =>
    have := findStep?_name fl m s h
    simp [this, hne]

theorem modifyStep_names (fl : Flow) (n : String) (f : Step → Step)
    (hf : ∀ s, (f s).name = s.name) :
    (modifyStep fl n f).steps.map (fun s => s.name) = fl.steps.map (fun s => s.name) := by
  unfold modifyStep
  rw [List.map_map]
  apply List.map_congr_left
  intro s _
  by_cases h : s.name = n <;> simp [h, hf]

theorem transitionF_name (s : Step) (t : StepState) : (s.transitionF t).name = s.name := by
  unfold Step.transitionF
  split <;> rfl

theorem transitionStep_names (fl : Flow) (n : String) (t : StepState) :
    (transitionStep fl n t).steps.map (fun s => s.name) = fl.steps.map (fun s => s.name) :=
  modifyStep_names fl n _ (fun s => transitionF_name s t)

theorem cleanStep_names (fuel : Nat) (n : String) (fl : Flow) :
    (cleanStep fuel fl n).steps.map (fun s => s.name) = fl.steps.map (fun s => s.name) := by
  induction fuel generalizing n fl with
  | zero => rfl
  | succ fuel ih =>
    have hfold : ∀ (ds : List String) (g : Flow),
        ((ds.foldl (fun f d => cleanStep fuel f d) g).steps.map (fun s => s.name)) =
          g.steps.map (fun s => s.name) := by
      intro ds
      induction ds with
      | nil => intro g; rfl
      | cons d ds ihd => intro g; rw [List.foldl_cons, ihd, ih]
    unfold cleanStep
    cases hfind : findStep? fl n with
    | none => rfl
    | some s =>
      dsimp only
      by_cases hd : s.isDirty = true
      · rw [if_pos hd]
        rw [modifyStep_names _ n (fun t => { t with isDirty := false }) (fun s => rfl)]
        repeat' split
        all_goals first
          | rw [hfold]
          | rw [transitionStep_names, hfold]
          | rw [modifyStep_names _ n (fun t => t.transitionF t.state)
                (fun s => transitionF_name s _), hfold]
      · rw [if_neg hd]

theorem find?_name_isSome (l : List Step) (n : String)
    (h : n ∈ l.map (fun s => s.name)) :
    ∃ t, l.find? (fun s => s.name = n) = some t := by
  induction l with
  | nil => simp at h
  | cons a l ih =>
    by_cases ha : a.name = n
    · exact ⟨a, List.find?_cons_of_pos _ (by simp [ha])⟩
    · have hmem : n ∈ l.map (fun s => s.name) := by
        simp only [List.map_cons, List.mem_cons] at h
        tauto
      obtain ⟨t, ht⟩ := ih hmem
      exact ⟨t, by rw [List.find?_cons_of_neg _ (by simp [ha]), ht]⟩

theorem findStep?_isSome_of_names (fl fl' : Flow) (n : String)
    (hnames : fl'.steps.map (fun s => s.name) = fl.steps.map (fun s => s.name))
    (s : Step) (h : findStep? fl n = some s) : ∃ s', findStep? fl' n = some s' := by
  have hmem : n ∈ fl.steps.map (fun s => s.name) := by
    have := List.mem_of_find?_eq_some h
    exact List.mem_map.mpr ⟨s, this, findStep?_name fl n s h⟩
  rw [← hnames] at hmem
  exact find?_name_isSome fl'.steps n hmem

theorem cleanFold_names (fuel : Nat) (ds : List String) (fl : Flow) :
    ((ds.foldl (fun f d => cleanStep fuel f d) fl).steps.map (fun s => s.name)) =
      fl.steps.map (fun s => s.name) := by
  induction ds generalizing fl with
  | nil => rfl
  | cons d ds ih => rw [List.foldl_cons, ih, cleanStep_names]

theorem transitionF_self (s : Step) : s.transitionF s.state = s := by
  unfold Step.transitionF
  rw [if_pos rfl]

theorem clear_transitionF (s : Step) (t : StepState) :
    { s.transitionF t with isDirty := false } =
    { s with state := t,
             prevState := if t = s.state then s.prevState else some s.state,
             isDirty := false } := by
  unfold Step.transitionF
  by_cases h : t = s.state
  · rw [if_pos h, if_pos h, h]
  · rw [if_neg h, if_neg h]

/-- The dispatch of `Step.clean`'s if-chain, abstracted over the already
dependency-cleaned flow `fl1v`, the re-read step `s1` and the dependency
states `DS`: it produces exactly the transition chosen by the spec-side
priority list `specCleanTarget`, followed by the unconditional clearing of
the dirty flag. -/
theorem cleanBranch_eval (n : String) (fl1v : Flow) (s1 : Step) (DS : List StepState)
    (hs1 : findStep? fl1v n = some s1) :
    findStep?
      (modifyStep
        (if s1.state = StepState.failed then fl1v
         else if s1.state = StepState.disabled then fl1v
         else if s1.state = StepState.running then fl1v
         else if s1.state = StepState.succeeded then fl1v
         else if StepState.failed ∈ DS ∨ StepState.depFailed ∈ DS then
           transitionStep fl1v n StepState.depFailed
         else if StepState.running ∈ DS ∨ StepState.waitingForDep ∈ DS ∨
                 StepState.waitingForRun ∈ DS ∨ StepState.disabled ∈ DS then
           transitionStep fl1v n StepState.waitingForDep
         else if DS = [] ∧ s1.state = StepState.none then
           transitionStep fl1v n StepState.waitingForRun
         else if DS = [] then
           modifyStep fl1v n (fun t => t.transitionF t.state)
         else if DS.all (fun x => x = StepState.succeeded) then
           transitionStep fl1v n StepState.waitingForRun
         else fl1v)
        n (fun t => { t with isDirty := false })) n =
      some { s1.transitionF ((specCleanTarget s1.state DS).getD s1.state) with
             isDirty := false } := by
  have hclear : ∀ (g : Flow) (t : Step), findStep? g n = some t →
      findStep? (modifyStep g n (fun u => { u with isDirty := false })) n =
        some { t with isDirty := false } := by
    intro g t ht
    exact findStep?_modifyStep_self g n (fun u => { u with isDirty := false })
      (fun u => rfl) t ht
  have htrans : ∀ (t : StepState),
      findStep? (transitionStep fl1v n t) n = some (s1.transitionF t) := by
    intro t
    exact findStep?_modifyStep_self fl1v n (fun u => u.transitionF t)
      (fun u => transitionF_name u t) s1 hs1
  have hcase4 :
      findStep? (modifyStep fl1v n (fun u => u.transitionF u.state)) n =
        some (s1.transitionF s1.state) :=
    findStep?_modifyStep_self fl1v n (fun u => u.transitionF u.state)
      (fun u => transitionF_name u _) s1 hs1
  split_ifs with h1 h2 h3 h4 h5 h6 h7 h8 h9
  · rw [hclear _ _ hs1]
    have htt : (specCleanTarget s1.state DS).getD s1.state = s1.state := by
      simp [specCleanTarget, h1]
    rw [htt, transitionF_self]
  · rw [hclear _ _ hs1]
    have htt : (specCleanTarget s1.state DS).getD s1.state = s1.state := by
      simp [specCleanTarget, h1, h2]
    rw [htt, transitionF_self]
  · rw [hclear _ _ hs1]
    have htt : (specCleanTarget s1.state DS).getD s1.state = s1.state := by
      simp [specCleanTarget, h1, h2, h3]
    rw [htt, transitionF_self]
  · rw [hclear _ _ hs1]
    have htt : (specCleanTarget s1.state DS).getD s1.state = s1.state := by
      simp [specCleanTarget, h1, h2, h3, h4]
    rw [htt, transitionF_self]
  · rw [hclear _ _ (htrans StepState.depFailed)]
    have htt : (specCleanTarget s1.state DS).getD s1.state = StepState.depFailed := by
      simp [specCleanTarget, h1, h2, h3, h4, h5]
    rw [htt]
  · rw [hclear _ _ (htrans StepState.waitingForDep)]
    have htt : (specCleanTarget s1.state DS).getD s1.state = StepState.waitingForDep := by
      simp [specCleanTarget, h1, h2, h3, h4, h5, h6]
    rw [htt]
  · rw [hclear _ _ (htrans StepState.waitingForRun)]
    have htt : (specCleanTarget s1.state DS).getD s1.state = StepState.waitingForRun := by
      simp [specCleanTarget, h1, h2, h3, h4, h5, h6, h7]
    rw [htt]
  · rw [hclear _ _ hcase4]
    simp only [h8, true_and] at h7
    have htt : (specCleanTarget s1.state DS).getD s1.state = s1.state := by
      simp [specCleanTarget, h1, h2, h3, h4, h5, h6, h7, h8]
    rw [htt]
  · rw [hclear _ _ (htrans StepState.waitingForRun)]
    have htt : (specCleanTarget s1.state DS).getD s1.state = StepState.waitingForRun := by
      simp [specCleanTarget, h1, h2, h3, h4, h5, h6, h7, h8, h9]
    rw [htt]
  · rw [hclear _ _ hs1]
    have htt : (specCleanTarget s1.state DS).getD s1.state = s1.state := by
      simp [specCleanTarget, h1, h2, h3, h4, h5, h6, h7, h8, h9]
    rw [htt, transitionF_self]

/-- **C1.**  For a dirty step, `Step.clean` first cleans every dependency
recursively, then performs exactly the transition selected by the
spec-side priority list `specCleanTarget` (evaluated on the step's state
and its dependencies' states as they are after the dependency cleaning),
recording `prevState` only when the state actually changes, and finally
leaves the dirty flag `false` — even when the transition inside this pass
set it again. -/
theorem cleanStep_dirty_eval (fuel : Nat) (fl : Flow) (n : String) (s : Step)
    (hfind : findStep? fl n = some s) (hdirty : s.isDirty = true) :
    findStep? (cleanStep (fuel + 1) fl n) n =
      (let fl1 := s.deps.foldl (fun f d => cleanStep fuel f d) fl
       let s1 := (findStep? fl1 n).getD s
       let ds := s.deps.filterMap (fun d => (findStep? fl1 d).map (fun t => t.state))
       let target := (specCleanTarget s1.state ds).getD s1.state
       some { s1 with
         state := target,
         prevState := if target = s1.state then s1.prevState else some s1.state,
         isDirty := false }) := by
  obtain ⟨s1, hs1⟩ := findStep?_isSome_of_names fl
      (s.deps.foldl (fun f d => cleanStep fuel f d) fl) n
      (cleanFold_names fuel s.deps fl) s hfind
  simp only [cleanStep]
  rw [hfind]
  dsimp only
  rw [if_pos hdirty, hs1]
  simp only [Option.getD_some]
  rw [← clear_transitionF]
  exact cleanBranch_eval n (s.deps.foldl (fun f d => cleanStep fuel f d) fl) s1
    (s.deps.filterMap
      (fun d => (findStep? (s.deps.foldl (fun f d => cleanStep fuel f d) fl) d).map
        (fun t => t.state)))
    hs1

/-- Fixture: a succeeded, already-clean dependency. -/
def wStepB : Step := { name := "b", state := StepState.succeeded, isDirty := false }

/-- Fixture: a dirty step depending on `wStepB`. -/
def wStepA : Step := { name := "a", deps := ["b"] }

/-- Fixture flow for witnesses. -/
def wFlow : Flow := { steps := [wStepA, wStepB] }

/-- Witness for `cleanStep_dirty_eval` at a concrete two-step flow. -/
theorem cleanStep_dirty_eval_witness :
    (findStep? wFlow "a" = some wStepA ∧ wStepA.isDirty = true) ∧
    findStep? (cleanStep 2 wFlow "a") "a" =
      (let fl1 := wStepA.deps.foldl (fun f d => cleanStep 1 f d) wFlow
       let s1 := (findStep? fl1 "a").getD wStepA
       let ds := wStepA.deps.filterMap (fun d => (findStep? fl1 d).map (fun t => t.state))
       let target := (specCleanTarget s1.state ds).getD s1.state
       some { s1 with
         state := target,
         prevState := if target = s1.state then s1.prevState else some s1.state,
         isDirty := false }) :=
  ⟨⟨by decide, by decide⟩,
    cleanStep_dirty_eval 1 wFlow "a" wStepA (by decide) (by decide)⟩

/-! ### Dirty-flag monotonicity of `clean`, and idempotence -/

/-- Pointwise relation between a flow's step list before and after a clean
pass: names agree and a step dirty afterwards was dirty before. -/
def dirtyMonoAt (a b : Step) : Prop :=
  b.name = a.name ∧ (b.isDirty = true → a.isDirty = true)

theorem forall₂_dirtyMono_refl (l : List Step) : List.Forall₂ dirtyMonoAt l l := by
  induction l with
  | nil => exact List.Forall₂.nil
  | cons a l ih => exact List.Forall₂.cons ⟨rfl, fun h => h⟩ ih

theorem forall₂_dirtyMono_trans {l₁ l₂ l₃ : List Step}
    (h₁ : List.Forall₂ dirtyMonoAt l₁ l₂) (h₂ : List.Forall₂ dirtyMonoAt l₂ l₃) :
    List.Forall₂ dirtyMonoAt l₁ l₃ := by
  induction h₁ generalizing l₃ with
  | nil => cases h₂; exact List.Forall₂.nil
  | cons hab h ih =>
    cases h₂ with
    | cons hbc h' =>
      exact List.Forall₂.cons ⟨hbc.1.trans hab.1, fun hd => hab.2 (hbc.2 hd)⟩ (ih h')

theorem forall₂_dirtyMono_map (l : List Step) (h : Step → Step)
    (hname : ∀ u, (h u).name = u.name)
    (hdirty : ∀ u, (h u).isDirty = true → u.isDirty = true) :
    List.Forall₂ dirtyMonoAt l (l.map h) := by
  induction l with
  | nil => exact List.Forall₂.nil
  | cons a l ih => exact List.Forall₂.cons ⟨hname a, hdirty a⟩ ih

theorem forall₂_dirtyMono_exists_left {l₁ l₂ : List Step}
    (h : List.Forall₂ dirtyMonoAt l₁ l₂) :
    ∀ b ∈ l₂, ∃ a ∈ l₁, dirtyMonoAt a b := by
  induction h with
  | nil => intro b hb; cases hb
  | cons hab h ih =>
    intro b hb
    rcases List.mem_cons.mp hb with hb | hb
    · exact ⟨_, List.mem_cons_self _ _, hb ▸ hab⟩
    · obtain ⟨a, ha, har⟩ := ih b hb
      exact ⟨a, List.mem_cons_of_mem _ ha, har⟩

theorem mono_modify_clear (fl1 : Flow) (n : String) :
    List.Forall₂ dirtyMonoAt fl1.steps
      ((modifyStep fl1 n (fun u => { u with isDirty := false })).steps) := by
  unfold modifyStep
  apply forall₂_dirtyMono_map
  · intro u; by_cases h : u.name = n <;> simp [h]
  · intro u; by_cases h : u.name = n <;> simp [h]

theorem mono_modify_tr_clear (fl1 : Flow) (n : String) (tr : Step → Step)
    (htr : ∀ u, (tr u).name = u.name) :
    List.Forall₂ dirtyMonoAt fl1.steps
      ((modifyStep (modifyStep fl1 n tr) n (fun u => { u with isDirty := false })).steps) := by
  unfold modifyStep
  simp only [List.map_map]
  apply forall₂_dirtyMono_map
  · intro u
    by_cases h : u.name = n <;> simp [Function.comp, h, htr]
  · intro u
    by_cases h : u.name = n <;> simp [Function.comp, h, htr]

theorem cleanStep_dirtyMono (fuel : Nat) (n : String) (fl : Flow) :
    List.Forall₂ dirtyMonoAt fl.steps (cleanStep fuel fl n).steps := by
  induction fuel generalizing n fl with
  | zero => exact forall₂_dirtyMono_refl _
  | succ fuel ih =>
    have hfold : ∀ (ds : List String) (g : Flow),
        List.Forall₂ dirtyMonoAt g.steps
          ((ds.foldl (fun f d => cleanStep fuel f d) g)).steps := by
      intro ds
      induction ds with
      | nil => intro g; exact forall₂_dirtyMono_refl _
      | cons d ds ihd =>
        intro g
        exact forall₂_dirtyMono_trans (ih d g) (ihd (cleanStep fuel g d))
    simp only [cleanStep]
    cases hfind : findStep? fl n with
    | none => exact forall₂_dirtyMono_refl _
    | some s =>
      dsimp only
      by_cases hd : s.isDirty = true
      · rw [if_pos hd]
        apply forall₂_dirtyMono_trans (hfold s.deps fl)
        repeat' split
        all_goals first
          | exact mono_modify_clear _ n
          | exact mono_modify_tr_clear _ n _ (fun u => transitionF_name u _)
      · rw [if_neg hd]
        exact forall₂_dirtyMono_refl _

theorem nodup_find?_unique (l : List Step) (n : String) (s : Step)
    (hnd : (l.map (fun s => s.name)).Nodup)
    (hf : l.find? (fun s => s.name = n) = some s) :
    ∀ t ∈ l, t.name = n → t = s := by
  induction l with
  | nil => intro t ht; cases ht
  | cons a l ih =>
    intro t ht htn
    simp only [List.map_cons, List.nodup_cons] at hnd
    by_cases ha : a.name = n
    · rw [List.find?_cons_of_pos _ (by simp [ha])] at hf
      cases hf
      rcases List.mem_cons.mp ht with rfl | hmem
      · rfl
      · exfalso
        exact hnd.1 (by rw [ha, ← htn]; exact List.mem_map.mpr ⟨t, hmem, rfl⟩)
    · rw [List.find?_cons_of_neg _ (by simp [ha])] at hf
      rcases List.mem_cons.mp ht with rfl | hmem
      · exact absurd htn ha
      · exact ih hnd.2 hf t hmem htn

theorem cleanStep_clears (fuel : Nat) (fl : Flow) (n : String)
    (hnd : (fl.steps.map (fun s => s.name)).Nodup) :
    ∀ t ∈ (cleanStep (fuel + 1) fl n).steps, t.name = n → t.isDirty = false := by
  simp only [cleanStep]
  cases hfind : findStep? fl n with
  | none =>
    intro t ht htn
    exfalso
    have : n ∈ fl.steps.map (fun s => s.name) := List.mem_map.mpr ⟨t, ht, htn⟩
    obtain ⟨u, hu⟩ := find?_name_isSome fl.steps n this
    rw [show findStep? fl n = fl.steps.find? (fun s => s.name = n) from rfl, hu] at hfind
    cases hfind
  | some s =>
    dsimp only
    by_cases hd : s.isDirty = true
    · rw [if_pos hd]
      intro t ht htn
      simp only [modifyStep] at ht
      obtain ⟨u, hu, rfl⟩ := List.mem_map.mp ht
      by_cases hun : u.name = n
      · simp [hun]
      · simp only [if_neg hun] at htn ⊢
        exact absurd htn hun
    · rw [if_neg hd]
      intro t ht htn
      have hs : s.isDirty = false := by
        cases h : s.isDirty
        · rfl
        · exact absurd h hd
      rw [nodup_find?_unique fl.steps n s hnd hfind t ht htn]
      exact hs

theorem cleanStep_nondirty_noop (fuel : Nat) (fl : Flow) (n : String) (s : Step)
    (hfind : findStep? fl n = some s) (hs : s.isDirty = false) :
    cleanStep fuel fl n = fl := by
  cases fuel with
  | zero => rfl
  | succ fuel =>
    simp only [cleanStep]
    rw [hfind]
    dsimp only
    rw [if_neg (by simp [hs])]

theorem cleanStep_absent_noop (fuel : Nat) (fl : Flow) (n : String)
    (hfind : findStep? fl n = Option.none) :
    cleanStep fuel fl n = fl := by
  cases fuel with
  | zero => rfl
  | succ fuel =>
    simp only [cleanStep]
    rw [hfind]

theorem fold_clean_dirtyMono (fuel : Nat) (ns : List String) (g : Flow) :
    List.Forall₂ dirtyMonoAt g.steps
      ((ns.foldl (fun f n => cleanStep fuel f n) g)).steps := by
  induction ns generalizing g with
  | nil => exact forall₂_dirtyMono_refl _
  | cons n ns ih =>
    exact forall₂_dirtyMono_trans (cleanStep_dirtyMono fuel n g) (ih (cleanStep fuel g n))

theorem fold_clean_names (fuel : Nat) (ns : List String) (g : Flow) :
    ((ns.foldl (fun f n => cleanStep fuel f n) g)).steps.map (fun s => s.name) =
      g.steps.map (fun s => s.name) := by
  induction ns generalizing g with
  | nil => rfl
  | cons n ns ih => rw [List.foldl_cons, ih, cleanStep_names]

theorem fold_clean_clears (fuel : Nat) (ns : List String) (g : Flow)
    (hnd : (g.steps.map (fun s => s.name)).Nodup) :
    ∀ t ∈ ((ns.foldl (fun f n => cleanStep (fuel + 1) f n) g)).steps,
      t.name ∈ ns → t.isDirty = false := by
  induction ns generalizing g with
  | nil => intro t _ htn; cases htn
  | cons n ns ih =>
    intro t ht htn
    rw [List.foldl_cons] at ht
    have hnd1 : ((cleanStep (fuel + 1) g n).steps.map (fun s => s.name)).Nodup := by
      rw [cleanStep_names]; exact hnd
    rcases List.mem_cons.mp htn with heq | hmem
    · -- cleaned at the head then only monotone afterwards
      obtain ⟨u, hu, hur⟩ := forall₂_dirtyMono_exists_left
        (fold_clean_dirtyMono (fuel + 1) ns (cleanStep (fuel + 1) g n)) t ht
      have hu0 : u.isDirty = false :=
        cleanStep_clears fuel g n hnd u hu (by rw [hur.1] at heq; exact heq)
      cases hdt : t.isDirty
      · rfl
      · rw [hur.2 hdt] at hu0; cases hu0
    · exact ih (cleanStep (fuel + 1) g n) hnd1 t ht hmem

theorem flowClean_nondirty (fl : Flow)
    (hnd : (fl.steps.map (fun s => s.name)).Nodup) :
    ∀ t ∈ (Flow.clean fl).steps, t.isDirty = false := by
  intro t ht
  cases hlen : fl.steps.length with
  | zero =>
    -- empty flow: the fold is trivial
    exfalso
    unfold Flow.clean at ht
    rw [List.length_eq_zero] at hlen
    rw [hlen] at ht
    simp only [List.map_nil, List.foldl_nil] at ht
    rw [hlen] at ht
    cases ht
  | succ k =>
    have := fold_clean_clears k (fl.steps.map (fun s => s.name)) fl hnd t
      (by unfold Flow.clean at ht; rw [← hlen]; exact ht)
    apply this
    have hnames := fold_clean_names fl.steps.length (fl.steps.map (fun s => s.name)) fl
    have : t.name ∈ (Flow.clean fl).steps.map (fun s => s.name) :=
      List.mem_map.mpr ⟨t, ht, rfl⟩
    unfold Flow.clean at this
    rw [hnames] at this
    exact this

theorem flowClean_of_all_nondirty (fl : Flow)
    (h : ∀ t ∈ fl.steps, t.isDirty = false) : Flow.clean fl = fl := by
  unfold Flow.clean
  have hgen : ∀ (ns : List String),
      ns.foldl (fun f n => cleanStep fl.steps.length f n) fl = fl := by
    intro ns
    induction ns with
    | nil => rfl
    | cons n ns ih =>
      rw [List.foldl_cons]
      have hstep : cleanStep fl.steps.length fl n = fl := by
        cases hfind : findStep? fl n with
        | none => exact cleanStep_absent_noop _ fl n hfind
        | some s =>
          exact cleanStep_nondirty_noop _ fl n s hfind
            (h s (List.mem_of_find?_eq_some hfind))
      rw [hstep, ih]
  exact hgen _

/-- **C2.**  Flow-wide `clean` is idempotent: one pass leaves every step
non-dirty, and a second pass with no intervening external change returns
the flow (all states, `prevState`s and dirty flags) unchanged.  The
hypothesis that step names are unique always holds for flows built by the
`Flow` constructor, whose steps come from the keys of a JS object. -/
theorem flowClean_idempotent (fl : Flow)
    (hnd : (fl.steps.map (fun s => s.name)).Nodup) :
    (∀ t ∈ (Flow.clean fl).steps, t.isDirty = false) ∧
      Flow.clean (Flow.clean fl) = Flow.clean fl := by
  have h1 := flowClean_nondirty fl hnd
  exact ⟨h1, flowClean_of_all_nondirty _ h1⟩

/-- Witness for `flowClean_idempotent` at a concrete flow. -/
theorem flowClean_idempotent_witness :
    ((wFlow.steps.map (fun s => s.name)).Nodup) ∧
    ((∀ t ∈ (Flow.clean wFlow).steps, t.isDirty = false) ∧
      Flow.clean (Flow.clean wFlow) = Flow.clean wFlow) :=
  ⟨by decide, flowClean_idempotent wFlow (by decide)⟩

theorem findStep?_transitionStep_other (fl : Flow) (n : String) (target : StepState)
    (m : String) (hm : m ≠ n) :
    findStep? (transitionStep fl n target) m = findStep? fl m :=
  findStep?_modifyStep_other fl n m (fun u => u.transitionF target)
    (fun u => transitionF_name u target) hm

theorem cleanStep_preserves_nondirty (fuel : Nat) (fl : Flow) (n m : String) (t : Step)
    (hfind : findStep? fl m = some t) (ht : t.isDirty = false) :
    findStep? (cleanStep fuel fl n) m = some t := by
  induction fuel generalizing fl n with
  | zero => exact hfind
  | succ fuel ih =>
    by_cases hnm : n = m
    · subst hnm
      rw [cleanStep_nondirty_noop (fuel + 1) fl n t hfind ht]
      exact hfind
    · cases hf2 : findStep? fl n with
      | none => rw [cleanStep_absent_noop _ fl n hf2]; exact hfind
      | some s =>
        by_cases hd : s.isDirty = true
        · simp only [cleanStep]
          rw [hf2]
          dsimp only
          rw [if_pos hd]
          have hfold : ∀ (ds : List String) (g : Flow), findStep? g m = some t →
              findStep? ((ds.foldl (fun f d => cleanStep fuel f d) g)) m = some t := by
            intro ds
            induction ds with
            | nil => intro g hg; exact hg
            | cons d ds ihd => intro g hg; rw [List.foldl_cons]; exact ihd _ (ih _ _ hg)
          have h1 : findStep? (s.deps.foldl (fun f d => cleanStep fuel f d) fl) m = some t :=
            hfold s.deps fl hfind
          have hm : m ≠ n := fun hc => hnm hc.symm
          rw [findStep?_modifyStep_other _ n m (fun u => { u with isDirty := false })
            (fun u => rfl) hm]
          repeat' split
          all_goals first
            | exact h1
            | (rw [findStep?_transitionStep_other _ n _ m hm]; exact h1)
            | (rw [findStep?_modifyStep_other _ n m
                  (fun u => u.transitionF u.state)
                  (fun u => transitionF_name u _) hm]; exact h1)
        · have hs : s.isDirty = false := by
            cases h : s.isDirty
            · rfl
            · exact absurd h hd
          rw [cleanStep_nondirty_noop _ fl n s hf2 hs]
          exact hfind

theorem flowClean_preserves_nondirty (fl : Flow) (m : String) (t : Step)
    (hfind : findStep? fl m = some t) (ht : t.isDirty = false) :
    findStep? (Flow.clean fl) m = some t := by
  unfold Flow.clean
  have hgen : ∀ (ns : List String) (g : Flow), findStep? g m = some t →
      findStep? ((ns.foldl (fun f n => cleanStep fl.steps.length f n) g)) m = some t := by
    intro ns
    induction ns with
    | nil => intro g hg; exact hg
    | cons n ns ihn =>
      intro g hg
      rw [List.foldl_cons]
      exact ihn _ (cleanStep_preserves_nondirty _ g n m t hg ht)
  exact hgen _ fl hfind

/-! ### Graph construction (`Flow` constructor, src/model.ts lines 176-241) -/

/-- The message `ensureOnlyKeys` throws. -/
def unexpectedKeysMsg (loc : String) (extras : List String) : String :=
  "Unexpected key(s) " ++ loc ++ ": " ++ String.intercalate ", " extras

/-- `ensureOnlyKeys` from src/utils.ts: throws on the first object with
unexpected keys. -/
def ensureOnlyKeys (extras : List String) (loc : String) : Except String Unit :=
  if extras = [] then Except.ok ()
  else Except.error (unexpectedKeysMsg loc extras)

/-- `stateJson.steps[name]`. -/
def lookupState (st : StateJson) (n : String) : Option StepStateJson :=
  (st.steps.find? (fun p => p.1 = n)).map (fun p => p.2)

/-- The log-mode dispatch of the `Step` constructor (src/model.ts lines
48-56). -/
def parseLogMode (name : String) (log? : Option String) : Except String LogMode :=
  match log? with
  | Option.none => Except.ok LogMode.file
  | some l =>
    if l = "console" then Except.ok LogMode.console
    else if l = "file" then Except.ok LogMode.file
    else Except.error ("invalid log mode " ++ l ++ " in step " ++ name)

/-- The `Step` constructor from src/model.ts lines 37-68: field checks in
source order (unknown keys, then log mode), then state hydration from the
snapshot; the dirty flag starts as `state == none`; `deps` starts empty and
is filled in by the `Flow` constructor. -/
def mkStep (name : String) (stoml : StepToml) (stj? : Option StepStateJson) :
    Except String Step :=
  match ensureOnlyKeys stoml.extraKeys ("in step " ++ name) with
  | Except.error e => Except.error e
  | Except.ok _ =>
    match parseLogMode name stoml.log with
    | Except.error e => Except.error e
    | Except.ok logMode =>
      let hydrated : StepState × Option StepState × List StepRun :=
        match stj? with
        | some stj => (stj.state, stj.prevState, stj.runs.getD [])
        | Option.none => (StepState.none, Option.none, [])
      Except.ok {
        name := name, env := stoml.env.getD [], cmd := stoml.cmd, cwd := stoml.cwd,
        desc := stoml.desc, logMode := logMode, tags := stoml.tags.getD [], deps := [],
        state := hydrated.1, prevState := hydrated.2.1,
        isDirty := decide (hydrated.1 = StepState.none), runs := hydrated.2.2 }

/-- Sequential `.map` with exceptions: the first constructor throw wins,
as in the JS `Object.entries(flowToml.steps).map(...)`. -/
def mapMExcept {α β : Type} (f : α → Except String β) : List α → Except String (List β)
  | [] => Except.ok []
  | x :: xs =>
    match f x with
    | Except.error e => Except.error e
    | Except.ok y =>
      match mapMExcept f xs with
      | Except.error e => Except.error e
      | Except.ok ys => Except.ok (y :: ys)

/-- Step objects in declaration order, before dependency resolution. -/
def mkSteps0 (toml : FlowToml) (st : StateJson) : Except String (List Step) :=
  mapMExcept (fun p => mkStep p.1 p.2 (lookupState st p.1)) toml.steps

/-- The declared `deps` value of the named step in the TOML. -/
def depsFieldOf (toml : FlowToml) (n : String) : DepsField :=
  ((toml.steps.find? (fun p => p.1 = n)).map (fun p => p.2.deps)).getD DepsField.absent

/-- Dependency names that resolve to a declared step (the ones pushed onto
`step.deps` by the constructor's resolution loop). -/
def resolvedDepsOf (names : List String) (df : DepsField) : List String :=
  match df with
  | DepsField.malformed => []
  | DepsField.absent => []
  | DepsField.arr l => l.filter (fun d => decide (d ∈ names))

/-- The errors the resolution loop collects for one step. -/
def depErrorsOf (names : List String) (df : DepsField) (sname : String) : List String :=
  match df with
  | DepsField.malformed => ["step.deps must be an array in step " ++ sname]
  | DepsField.absent => []
  | DepsField.arr l =>
    (l.filter (fun d => decide (¬ d ∈ names))).map
      (fun d => "Dependency not found: " ++ sname ++ " => " ++ d)

/-- The step list after the constructor's dependency-resolution loop. -/
def resolvedSteps (toml : FlowToml) (steps0 : List Step) : List Step :=
  steps0.map (fun s =>
    { s with deps := resolvedDepsOf (steps0.map (fun u => u.name)) (depsFieldOf toml s.name) })

/-- All dependency errors collected by the resolution loop, in step order. -/
def depErrors (toml : FlowToml) (steps0 : List Step) : List String :=
  steps0.flatMap (fun s =>
    depErrorsOf (steps0.map (fun u => u.name)) (depsFieldOf toml s.name) s.name)

/-- The dependency list of the named step inside a step list. -/
def depsOfL (steps : List Step) (n : String) : List String :=
  ((steps.find? (fun s => s.name = n)).map (fun s => s.deps)).getD []

/-- `checkCycles` from src/model.ts lines 204-214: depth-first search
tracking the current path (`seen`, in insertion order); re-visiting a node
on the path records the whole path (plus the revisited node) as one cycle
description.  Each recorded path is rendered in the error message as its
`" => "`-join.  The fuel only bounds the path length; `steps.length + 1`
is enough because the path never repeats a node. -/
def checkCycles (steps : List Step) : Nat → String → List String → List (List String)
  | 0, _, _ => []
  | Nat.succ fuel, s, seen =>
    if s ∈ seen then [seen ++ [s]]
    else (depsOfL steps s).flatMap (fun d => checkCycles steps fuel d (seen ++ [s]))

/-- The constructor's cycle scan: DFS from every step. -/
def checkAllCycles (steps : List Step) : List (List String) :=
  steps.flatMap (fun s => checkCycles steps (steps.length + 1) s.name [])

/-- The `Cyclical dependencies found` error line. -/
def cycleErrorLine (paths : List (List String)) : String :=
  "Cyclical dependencies found: " ++
    String.intercalate ", " (paths.map (fun p => String.intercalate " => " p))

/-- The `ancestors` accumulator from src/model.ts lines 156-167 (sets kept
as insertion-ordered lists).  Fuel `steps.length + 1` is enough because the
accumulator grows at every recursive call. -/
def accumAnc (steps : List Step) : Nat → List String → String → List String
  | 0, acc, _ => acc
  | Nat.succ fuel, acc, s =>
    (depsOfL steps s).foldl
      (fun acc2 d => if d ∈ acc2 then acc2 else accumAnc steps fuel (acc2 ++ [d]) d) acc

/-- Ancestor closure assignment (constructor lines 227-229). -/
def addAncestors (steps1 : List Step) : List Step :=
  steps1.map (fun s => { s with ancestors := accumAnc steps1 (steps1.length + 1) [] s.name })

/-- Descendants as the inverse of `ancestors` (constructor lines 231-233). -/
def addDescendants (steps2 : List Step) : List Step :=
  steps2.map (fun s =>
    { s with descendants :=
        (steps2.filter (fun t => decide (s.name ∈ t.ancestors))).map (fun t => t.name) })

/-- Direct descendants (constructor lines 235-237). -/
def addDirectDescendants (steps3 : List Step) : List Step :=
  steps3.map (fun s =>
    { s with directDescendants :=
        (steps3.filter (fun t => decide (s.name ∈ t.deps))).map (fun t => t.name) })

/-- The `Flow` constructor from src/model.ts lines 176-241: top-level key
check (fail-fast throw), step construction (fail-fast throws), dependency
resolution and cycle detection (collected errors, aggregated into one
thrown message), then closure computation. -/
def flowNew (toml : FlowToml) (st : StateJson) : Except String Flow :=
  match ensureOnlyKeys toml.extraKeys "at toplevel" with
  | Except.error e => Except.error e
  | Except.ok _ =>
    match mkSteps0 toml st with
    | Except.error e => Except.error e
    | Except.ok steps0 =>
      let steps1 := resolvedSteps toml steps0
      let errs := depErrors toml steps0 ++
        (if checkAllCycles steps1 = [] then [] else [cycleErrorLine (checkAllCycles steps1)])
      if errs = [] then
        let steps4 := addDirectDescendants (addDescendants (addAncestors steps1))
        Except.ok {
          env := toml.env,
          steps := steps4,
          initialSteps := (steps4.filter (fun s => s.ancestors.isEmpty)).map (fun s => s.name),
          finalSteps := (steps4.filter (fun s => s.descendants.isEmpty)).map (fun s => s.name) }
      else
        Except.error (String.intercalate "\n" errs)

/-! ### Inversion of the constructor pipeline -/

theorem mapMExcept_ok_forall₂ {α β : Type} (f : α → Except String β) (l : List α)
    (ys : List β) (h : mapMExcept f l = Except.ok ys) :
    List.Forall₂ (fun x y => f x = Except.ok y) l ys := by
  induction l generalizing ys with
  | nil =>
    unfold mapMExcept at h
    cases h
    exact List.Forall₂.nil
  | cons x xs ih =>
    unfold mapMExcept at h
    cases hx : f x with
    | error e => rw [hx] at h; cases h
    | ok y =>
      rw [hx] at h
      cases hxs : mapMExcept f xs with
      | error e => rw [hxs] at h; cases h
      | ok zs =>
        rw [hxs] at h
        cases h
        exact List.Forall₂.cons hx (ih zs hxs)

theorem mkStep_ok_inv (n : String) (stoml : StepToml) (stj? : Option StepStateJson)
    (s : Step) (h : mkStep n stoml stj? = Except.ok s) :
    s.name = n ∧ s.deps = [] ∧ s.isDirty = decide (s.state = StepState.none) := by
  unfold mkStep at h
  cases hek : ensureOnlyKeys stoml.extraKeys ("in step " ++ n) with
  | error e => rw [hek] at h; cases h
  | ok u =>
    rw [hek] at h
    cases hlm : parseLogMode n stoml.log with
    | error e => rw [hlm] at h; cases h
    | ok lm =>
      rw [hlm] at h
      cases h
      exact ⟨rfl, rfl, rfl⟩

theorem forall₂_mkStep_names {l : List (String × StepToml)} {ys : List Step}
    {st : StateJson}
    (h : List.Forall₂ (fun p y => mkStep p.1 p.2 (lookupState st p.1) = Except.ok y) l ys) :
    ys.map (fun s => s.name) = l.map (fun p => p.1) := by
  induction h with
  | nil => rfl
  | cons hxy h2 ih =>
    simp only [List.map_cons]
    rw [(mkStep_ok_inv _ _ _ _ hxy).1, ih]

theorem forall₂_mkStep_props {l : List (String × StepToml)} {ys : List Step}
    {st : StateJson}
    (h : List.Forall₂ (fun p y => mkStep p.1 p.2 (lookupState st p.1) = Except.ok y) l ys) :
    ∀ s ∈ ys, s.deps = [] ∧ s.isDirty = decide (s.state = StepState.none) := by
  induction h with
  | nil => intro s hs; cases hs
  | cons hxy h2 ih =>
    intro s hs
    rcases List.mem_cons.mp hs with rfl | hmem
    · exact ⟨(mkStep_ok_inv _ _ _ _ hxy).2.1, (mkStep_ok_inv _ _ _ _ hxy).2.2⟩
    · exact ih s hmem

theorem mkSteps0_ok_names (toml : FlowToml) (st : StateJson) (steps0 : List Step)
    (h : mkSteps0 toml st = Except.ok steps0) :
    steps0.map (fun s => s.name) = toml.steps.map (fun p => p.1) :=
  forall₂_mkStep_names (mapMExcept_ok_forall₂ _ _ _ h)

theorem mkSteps0_ok_props (toml : FlowToml) (st : StateJson) (steps0 : List Step)
    (h : mkSteps0 toml st = Except.ok steps0) :
    ∀ s ∈ steps0, s.deps = [] ∧ s.isDirty = decide (s.state = StepState.none) :=
  forall₂_mkStep_props (mapMExcept_ok_forall₂ _ _ _ h)

theorem mem_addDirectDescendants_inv (l : List Step) (t : Step)
    (ht : t ∈ addDirectDescendants l) :
    ∃ u ∈ l, t.state = u.state ∧ t.isDirty = u.isDirty := by
  unfold addDirectDescendants at ht
  obtain ⟨u, hu, rfl⟩ := List.mem_map.mp ht
  exact ⟨u, hu, rfl, rfl⟩

theorem mem_addDescendants_inv (l : List Step) (t : Step)
    (ht : t ∈ addDescendants l) :
    ∃ u ∈ l, t.state = u.state ∧ t.isDirty = u.isDirty := by
  unfold addDescendants at ht
  obtain ⟨u, hu, rfl⟩ := List.mem_map.mp ht
  exact ⟨u, hu, rfl, rfl⟩

theorem mem_addAncestors_inv (l : List Step) (t : Step)
    (ht : t ∈ addAncestors l) :
    ∃ u ∈ l, t.state = u.state ∧ t.isDirty = u.isDirty := by
  unfold addAncestors at ht
  obtain ⟨u, hu, rfl⟩ := List.mem_map.mp ht
  exact ⟨u, hu, rfl, rfl⟩

theorem mem_resolvedSteps_inv (toml : FlowToml) (l : List Step) (t : Step)
    (ht : t ∈ resolvedSteps toml l) :
    ∃ u ∈ l, t.state = u.state ∧ t.isDirty = u.isDirty := by
  unfold resolvedSteps at ht
  obtain ⟨u, hu, rfl⟩ := List.mem_map.mp ht
  exact ⟨u, hu, rfl, rfl⟩

theorem flowNew_ok_inv (toml : FlowToml) (st : StateJson) (fl : Flow)
    (h : flowNew toml st = Except.ok fl) :
    toml.extraKeys = [] ∧
    ∃ steps0, mkSteps0 toml st = Except.ok steps0 ∧
      depErrors toml steps0 = [] ∧
      checkAllCycles (resolvedSteps toml steps0) = [] ∧
      fl.steps = addDirectDescendants (addDescendants (addAncestors
        (resolvedSteps toml steps0))) := by
  unfold flowNew at h
  cases hek : ensureOnlyKeys toml.extraKeys "at toplevel" with
  | error e => rw [hek] at h; cases h
  | ok u =>
    have hkeys : toml.extraKeys = [] := by
      unfold ensureOnlyKeys at hek
      by_cases hk : toml.extraKeys = []
      · exact hk
      · rw [if_neg hk] at hek; cases hek
    rw [hek] at h
    cases hs0 : mkSteps0 toml st with
    | error e => rw [hs0] at h; cases h
    | ok steps0 =>
      rw [hs0] at h
      dsimp only at h
      by_cases herrs : depErrors toml steps0 ++
          (if checkAllCycles (resolvedSteps toml steps0) = [] then []
           else [cycleErrorLine (checkAllCycles (resolvedSteps toml steps0))]) = []
      · rw [if_pos herrs] at h
        cases h
        rcases List.append_eq_nil.mp herrs with ⟨hdep, hcyc⟩
        have hcyc2 : checkAllCycles (resolvedSteps toml steps0) = [] := by
          by_cases hc : checkAllCycles (resolvedSteps toml steps0) = []
          · exact hc
          · rw [if_neg hc] at hcyc; cases hcyc
        exact ⟨hkeys, steps0, rfl, hdep, hcyc2, rfl⟩
      · rw [if_neg herrs] at h; cases h

/-- **C10.**  Immediately after `Flow` construction a step is dirty exactly
when its state is `none`; consequently a step rehydrated from the snapshot
in any other state starts non-dirty, and a flow-wide clean pass leaves its
whole entry (state included) unchanged. -/
theorem flowNew_dirty_iff_none (toml : FlowToml) (st : StateJson) (fl : Flow)
    (h : flowNew toml st = Except.ok fl) :
    (∀ s ∈ fl.steps, (s.isDirty = true ↔ s.state = StepState.none)) ∧
    (∀ m t, findStep? fl m = some t → t.isDirty = false →
      findStep? (Flow.clean fl) m = some t) := by
  obtain ⟨-, steps0, hs0, -, -, hsteps⟩ := flowNew_ok_inv toml st fl h
  constructor
  · intro s hs
    rw [hsteps] at hs
    obtain ⟨u3, hu3, hst3, hdi3⟩ := mem_addDirectDescendants_inv _ s hs
    obtain ⟨u2, hu2, hst2, hdi2⟩ := mem_addDescendants_inv _ u3 hu3
    obtain ⟨u1, hu1, hst1, hdi1⟩ := mem_addAncestors_inv _ u2 hu2
    obtain ⟨u0, hu0, hst0, hdi0⟩ := mem_resolvedSteps_inv toml _ u1 hu1
    have hprop := (mkSteps0_ok_props toml st steps0 hs0 u0 hu0).2
    rw [hdi3, hdi2, hdi1, hdi0, hst3, hst2, hst1, hst0, hprop]
    constructor
    · intro hd
      exact of_decide_eq_true hd
    · intro hst
      exact decide_eq_true hst
  · intro m t hfind ht
    exact flowClean_preserves_nondirty fl m t hfind ht

/-- Concrete spec fixture: three steps, `b` rehydrated as `succeeded`. -/
def wToml : FlowToml := { steps := [
  ("a", { cmd := "true" }),
  ("b", { cmd := "false", deps := DepsField.arr ["a"] }),
  ("c", { cmd := "true", deps := DepsField.arr ["a", "b"] })] }

/-- Concrete snapshot fixture matching `wToml`. -/
def wState : StateJson :=
  { version := 1, steps := [("b", { state := StepState.succeeded, runs := some [] })] }

/-- The flow `wToml`/`wState` construct (total by construction). -/
def wFlowC : Flow :=
  match flowNew wToml wState with
  | Except.ok f => f
  | Except.error _ => { steps := [] }

/-- Witness for `flowNew_dirty_iff_none` at a concrete spec and snapshot. -/
theorem flowNew_dirty_iff_none_witness :
    (flowNew wToml wState = Except.ok wFlowC) ∧
    ((∀ s ∈ wFlowC.steps, (s.isDirty = true ↔ s.state = StepState.none)) ∧
    (∀ m t, findStep? wFlowC m = some t → t.isDirty = false →
      findStep? (Flow.clean wFlowC) m = some t)) :=
  ⟨by rfl, flowNew_dirty_iff_none wToml wState wFlowC (by rfl)⟩

/-! ### Snapshot update (`Flow.update`, src/model.ts lines 264-272) -/

/-- Assignment `stateJson.steps[name] = {...}` on a JS object: replace the
value in place when the key exists, append otherwise. -/
def upsert (l : List (String × StepStateJson)) (k : String) (v : StepStateJson) :
    List (String × StepStateJson) :=
  if l.any (fun p => decide (p.1 = k)) then
    l.map (fun p => if p.1 = k then (k, v) else p)
  else l ++ [(k, v)]

/-- The per-step snapshot entry `Flow.update` writes (`StepRun.toJson` is
the identity in this embedding). -/
def stepSnapshot (s : Step) : StepStateJson :=
  { state := s.state, prevState := s.prevState, runs := some (s.runs.map (fun r => r)) }

/-- `Flow.update` from src/model.ts lines 264-272: upsert an entry for every
current step, keyed by step name; entries of absent steps are not touched. -/
def Flow.update (fl : Flow) (st : StateJson) : StateJson :=
  { st with steps := fl.steps.foldl (fun m s => upsert m s.name (stepSnapshot s)) st.steps }

theorem lookup_upsert_self (l : List (String × StepStateJson)) (k : String)
    (v : StepStateJson) :
    (upsert l k v).find? (fun p => p.1 = k) = some (k, v) := by
  unfold upsert
  by_cases ha : l.any (fun p => decide (p.1 = k)) = true
  · rw [if_pos ha]
    induction l with
    | nil => cases ha
    | cons p l ih =>
      by_cases hp : p.1 = k
      · rw [List.map_cons, if_pos hp, List.find?_cons_of_pos _ (by simp)]
      · rw [List.map_cons, if_neg hp, List.find?_cons_of_neg _ (by simp [hp])]
        apply ih
        simp only [List.any_cons, Bool.or_eq_true] at ha
        rcases ha with ha | ha
        · exact absurd (of_decide_eq_true ha) hp
        · exact ha
  · rw [if_neg ha]
    induction l with
    | nil => rw [List.nil_append, List.find?_cons_of_pos _ (by simp)]
    | cons p l ih =>
      simp only [List.any_cons, Bool.or_eq_true] at ha
      push_neg at ha
      have hp : ¬ p.1 = k := by
        intro hc
        exact ha.1 (by simp [hc])
      rw [List.cons_append, List.find?_cons_of_neg _ (by simp [hp])]
      exact ih ha.2

theorem find?_replace_other (l : List (String × StepStateJson)) (k : String)
    (v : StepStateJson) (m : String) (hmk : m ≠ k) :
    (l.map (fun p => if p.1 = k then (k, v) else p)).find? (fun p => p.1 = m) =
      l.find? (fun p => p.1 = m) := by
  induction l with
  | nil => rfl
  | cons p l ih =>
    by_cases hp : p.1 = k
    · rw [List.map_cons, if_pos hp, List.find?_cons_of_neg _ (by simp [Ne.symm hmk]),
        List.find?_cons_of_neg _ (by simp [hp, Ne.symm hmk]), ih]
    · rw [List.map_cons, if_neg hp]
      by_cases hm : p.1 = m
      · rw [List.find?_cons_of_pos _ (by simp [hm]), List.find?_cons_of_pos _ (by simp [hm])]
      · rw [List.find?_cons_of_neg _ (by simp [hm]), List.find?_cons_of_neg _ (by simp [hm]), ih]

theorem find?_append_single_other (l : List (String × StepStateJson)) (k : String)
    (v : StepStateJson) (m : String) (hmk : m ≠ k) :
    (l ++ [(k, v)]).find? (fun p => p.1 = m) = l.find? (fun p => p.1 = m) := by
  induction l with
  | nil =>
    rw [List.nil_append, List.find?_cons_of_neg _ (by simp [Ne.symm hmk])]
  | cons p l ih =>
    by_cases hm : p.1 = m
    · rw [List.cons_append, List.find?_cons_of_pos _ (by simp [hm]),
        List.find?_cons_of_pos _ (by simp [hm])]
    · rw [List.cons_append, List.find?_cons_of_neg _ (by simp [hm]),
        List.find?_cons_of_neg _ (by simp [hm]), ih]

theorem lookup_upsert_other (l : List (String × StepStateJson)) (k : String)
    (v : StepStateJson) (m : String) (hmk : m ≠ k) :
    (upsert l k v).find? (fun p => p.1 = m) = l.find? (fun p => p.1 = m) := by
  unfold upsert
  split
  · exact find?_replace_other l k v m hmk
  · exact find?_append_single_other l k v m hmk

theorem fold_upsert_absent (ss : List Step) (m : List (String × StepStateJson))
    (k : String) (hk : ¬ k ∈ ss.map (fun s => s.name)) :
    (ss.foldl (fun m s => upsert m s.name (stepSnapshot s)) m).find? (fun p => p.1 = k) =
      m.find? (fun p => p.1 = k) := by
  induction ss generalizing m with
  | nil => rfl
  | cons s ss ih =>
    simp only [List.map_cons, List.mem_cons] at hk
    push_neg at hk
    rw [List.foldl_cons, ih _ hk.2, lookup_upsert_other _ _ _ _ hk.1]

/-- **C7.**  `Flow.update` upserts an entry `(state, prevState, runs)` for
every step of the flow, keyed by step name, and leaves every entry whose
key names no current step unchanged — temporarily removing a step from the
spec does not erase its persisted history.  The `Nodup` hypothesis models
step names being JS object keys. -/
theorem flow_update_spec (fl : Flow) (st : StateJson)
    (hnd : (fl.steps.map (fun s => s.name)).Nodup) (k : String) :
    lookupState (fl.update st) k =
      match fl.steps.find? (fun s => s.name = k) with
      | some s => some (stepSnapshot s)
      | Option.none => lookupState st k := by
  unfold Flow.update lookupState
  dsimp only
  have hgen : ∀ (ss : List Step) (m : List (String × StepStateJson)),
      (ss.map (fun s => s.name)).Nodup →
      ((ss.foldl (fun m s => upsert m s.name (stepSnapshot s)) m).find?
          (fun p => p.1 = k)).map (fun p => p.2) =
        match ss.find? (fun s => s.name = k) with
        | some s => some (stepSnapshot s)
        | Option.none => (m.find? (fun p => p.1 = k)).map (fun p => p.2) := by
    intro ss
    induction ss with
    | nil => intro m _; rfl
    | cons s ss ih =>
      intro m hnd2
      simp only [List.map_cons, List.nodup_cons] at hnd2
      rw [List.foldl_cons]
      by_cases hs : s.name = k
      · rw [List.find?_cons_of_pos _ (by simp [hs])]
        rw [fold_upsert_absent ss _ k (by rw [← hs]; exact hnd2.1)]
        rw [hs, lookup_upsert_self]
        rfl
      · rw [List.find?_cons_of_neg _ (by simp [hs])]
        rw [ih _ hnd2.2]
        cases ss.find? (fun s => s.name = k) with
        | some t => rfl
        | none => rw [lookup_upsert_other _ _ _ _ (fun hc => hs hc.symm)]
  exact hgen fl.steps st.steps hnd

/-- Snapshot fixture containing an entry for a step not in `wFlow`. -/
def wStateOld : StateJson :=
  { version := 1,
    steps := [("old", { state := StepState.failed, runs := some [] })] }

/-- Witness for `flow_update_spec`: the stale `"old"` entry survives, the
current step's entry is upserted. -/
theorem flow_update_spec_witness :
    ((wFlow.steps.map (fun s => s.name)).Nodup ∧
      lookupState (wFlow.update wStateOld) "old" =
        match wFlow.steps.find? (fun s => s.name = "old") with
        | some s => some (stepSnapshot s)
        | Option.none => lookupState wStateOld "old") ∧
    lookupState (wFlow.update wStateOld) "old" = lookupState wStateOld "old" :=
  ⟨⟨by decide, flow_update_spec wFlow wStateOld (by decide) "old"⟩, by decide⟩

/-! ### Run history retention (`runStep`, src/miniflow.ts lines 216-226) -/

/-- `MAX_RUNS_TO_RETAIN` from src/miniflow.ts. -/
def MAX_RUNS_TO_RETAIN : Nat := 10

/-- The `while (step.runs.length > MAX_RUNS_TO_RETAIN)` loop: pop the
oldest run (the list is most-recent-first) until at most the limit remain.
Returns `(kept, evicted)` with the evicted runs in pop order; the caller
best-effort deletes each evicted run's log file (`try/catch` swallowed). -/
def evictLoop (runs : List StepRun) : List StepRun × List StepRun :=
  if _h : MAX_RUNS_TO_RETAIN < runs.length then
    match runs.getLast? with
    | some last =>
      let p := evictLoop runs.dropLast
      (p.1, last :: p.2)
    | Option.none => (runs, [])
  else (runs, [])
termination_by runs.length
decreasing_by
  rw [List.length_dropLast]
  omega

/-- The run-tracking effect of one `runStep` launch: transition to
`running`, unshift the new `StepRun`, evict past the retention limit. -/
def startRun (s : Step) (run : StepRun) : Step × List StepRun :=
  let s1 := s.transitionF StepState.running
  let p := evictLoop (run :: s1.runs)
  ({ s1 with runs := p.1 }, p.2)

/-- Launching a sequence of runs in order, collecting every evicted run in
eviction order. -/
def startRuns (s : Step) (rs : List StepRun) : Step × List StepRun :=
  rs.foldl (fun acc r =>
    let q := startRun acc.1 r
    (q.1, acc.2 ++ q.2)) (s, [])

theorem transitionF_runs (s : Step) (t : StepState) :
    (s.transitionF t).runs = s.runs := by
  unfold Step.transitionF
  split <;> rfl

theorem evictLoop_le (l : List StepRun) (h : l.length ≤ MAX_RUNS_TO_RETAIN) :
    evictLoop l = (l, []) := by
  unfold evictLoop
  rw [dif_neg (by omega)]

theorem evictLoop_concat11 (l : List StepRun) (x : StepRun)
    (h : l.length = MAX_RUNS_TO_RETAIN) :
    evictLoop (l ++ [x]) = (l, [x]) := by
  unfold evictLoop
  rw [dif_pos (by simp [h])]
  rw [List.getLast?_concat]
  dsimp only
  rw [List.dropLast_concat, evictLoop_le l (le_of_eq h)]

theorem foldl_evict_acc (rs : List StepRun) (init : Step) (e0 : List StepRun) :
    rs.foldl (fun acc r =>
        let q := startRun acc.1 r
        (q.1, acc.2 ++ q.2)) (init, e0) =
      ((startRuns init rs).1, e0 ++ (startRuns init rs).2) := by
  induction rs generalizing init e0 with
  | nil => unfold startRuns; simp
  | cons r rs ih =>
    rw [List.foldl_cons]
    dsimp only
    rw [ih]
    conv =>
      rhs
      rw [startRuns, List.foldl_cons]
    dsimp only
    rw [ih (startRun init r).1 ([] ++ (startRun init r).2)]
    simp [List.append_assoc]

theorem startRuns_split (s : Step) (r : StepRun) (rs : List StepRun) :
    startRuns s (r :: rs) =
      ((startRuns (startRun s r).1 rs).1,
        (startRun s r).2 ++ (startRuns (startRun s r).1 rs).2) := by
  have h : startRuns s (r :: rs) =
      rs.foldl (fun acc r =>
        let q := startRun acc.1 r
        (q.1, acc.2 ++ q.2)) ((startRun s r).1, [] ++ (startRun s r).2) := rfl
  rw [h, foldl_evict_acc]
  simp

theorem startRuns_general (rs : List StepRun) (s : Step)
    (hlen : s.runs.length ≤ MAX_RUNS_TO_RETAIN) :
    (startRuns s rs).1.runs = (rs.reverse ++ s.runs).take MAX_RUNS_TO_RETAIN ∧
    (startRuns s rs).2 =
      (s.runs.reverse ++ rs).take (s.runs.length + rs.length - MAX_RUNS_TO_RETAIN) := by
  induction rs generalizing s with
  | nil =>
    unfold startRuns
    simp only [List.foldl_nil, List.reverse_nil, List.nil_append, List.length_nil]
    refine ⟨(List.take_of_length_le hlen).symm, ?_⟩
    have hz : s.runs.length + 0 - MAX_RUNS_TO_RETAIN = 0 := by omega
    rw [hz, List.take_zero]
  | cons r rs ih =>
    rw [startRuns_split]
    by_cases hle : s.runs.length + 1 ≤ MAX_RUNS_TO_RETAIN
    · -- no eviction this round
      have h1 : (startRun s r).1.runs = r :: s.runs := by
        unfold startRun
        dsimp only
        rw [transitionF_runs, evictLoop_le _ (by simp [List.length_cons, transitionF_runs]; omega)]
      have h2 : (startRun s r).2 = [] := by
        unfold startRun
        dsimp only
        rw [transitionF_runs, evictLoop_le _ (by simp [List.length_cons, transitionF_runs]; omega)]
      obtain ⟨ihr, ihe⟩ := ih (startRun s r).1 (by rw [h1]; simpa using hle)
      constructor
      · rw [ihr, h1]
        simp [List.append_assoc]
      · rw [h2, List.nil_append, ihe, h1]
        simp only [List.reverse_cons, List.length_cons, List.length_reverse]
        rw [List.append_assoc]
        simp only [List.singleton_append, List.length_cons]
        congr 1
        omega
    · -- s.runs is full (length exactly the limit): the oldest run is popped
      have hfull : s.runs.length = MAX_RUNS_TO_RETAIN := by omega
      rcases s.runs.eq_nil_or_concat' with hnil | ⟨q, y, hq⟩
      · rw [hnil] at hfull; cases hfull
      · have hql : (r :: q).length = MAX_RUNS_TO_RETAIN := by
          have := hfull
          rw [hq, List.length_append] at this
          simp only [List.length_cons]
          simp at this
          omega
        have h1 : (startRun s r).1.runs = r :: q := by
          unfold startRun
          dsimp only
          rw [transitionF_runs, hq, ← List.cons_append, evictLoop_concat11 _ _ hql]
        have h2 : (startRun s r).2 = [y] := by
          unfold startRun
          dsimp only
          rw [transitionF_runs, hq, ← List.cons_append, evictLoop_concat11 _ _ hql]
        obtain ⟨ihr, ihe⟩ := ih (startRun s r).1 (by rw [h1]; exact le_of_eq hql)
        have hq9 : q.length + 1 = MAX_RUNS_TO_RETAIN := by simpa using hql
        constructor
        · rw [ihr, h1, hq, List.reverse_cons]
          have hlen10 : MAX_RUNS_TO_RETAIN ≤ (rs.reverse ++ [r] ++ q).length := by
            simp only [List.length_append, List.length_reverse, List.length_cons,
              List.length_nil]
            omega
          have e1 : rs.reverse ++ (r :: q) = rs.reverse ++ [r] ++ q := by
            simp [List.append_assoc]
          have e2 : rs.reverse ++ [r] ++ (q ++ [y]) = (rs.reverse ++ [r] ++ q) ++ [y] := by
            simp [List.append_assoc]
          rw [e1, e2, List.take_append_of_le_length hlen10]
        · rw [h2, ihe, h1, hq]
          have hlq : (r :: q).length + rs.length - MAX_RUNS_TO_RETAIN = rs.length := by
            simp only [List.length_cons]
            omega
          have hrq : (q ++ [y]).length + (r :: rs).length - MAX_RUNS_TO_RETAIN =
              rs.length + 1 := by
            simp only [List.length_append, List.length_cons, List.length_nil]
            omega
          rw [hlq, hrq]
          have e3 : (q ++ [y]).reverse ++ (r :: rs) = y :: (q.reverse ++ (r :: rs)) := by
            simp
          have e4 : (r :: q).reverse ++ rs = q.reverse ++ (r :: rs) := by
            simp
          rw [e3, e4, List.take_succ_cons]
          rfl

/-- **C8.**  Starting more than `MAX_RUNS_TO_RETAIN` (= 10) runs from an
empty history retains exactly the 10 most recent `StepRun`s, most recent
first, and the runs evicted (whose log files the loop best-effort deletes,
swallowing failures) are exactly the oldest ones, in eviction order. -/
theorem runs_retention (s0 : Step) (rs : List StepRun) (h0 : s0.runs = [])
    (hN : MAX_RUNS_TO_RETAIN < rs.length) :
    (startRuns s0 rs).1.runs = rs.reverse.take MAX_RUNS_TO_RETAIN ∧
    (startRuns s0 rs).1.runs.length = MAX_RUNS_TO_RETAIN ∧
    (startRuns s0 rs).2 = rs.take (rs.length - MAX_RUNS_TO_RETAIN) := by
  obtain ⟨hr, he⟩ := startRuns_general rs s0 (by rw [h0]; simp)
  rw [h0] at hr he
  simp only [List.append_nil, List.reverse_nil, List.nil_append, List.length_nil,
    Nat.zero_add] at hr he
  refine ⟨hr, ?_, he⟩
  rw [hr, List.length_take, List.length_reverse]
  omega

/-- Eleven distinct runs for the retention witness. -/
def wRuns : List StepRun :=
  (List.range 11).map (fun i => { startTimestamp := toString i })

/-- Witness for `runs_retention` at eleven concrete runs. -/
theorem runs_retention_witness :
    (wStepA.runs = [] ∧ MAX_RUNS_TO_RETAIN < wRuns.length) ∧
    ((startRuns wStepA wRuns).1.runs = wRuns.reverse.take MAX_RUNS_TO_RETAIN ∧
    (startRuns wStepA wRuns).1.runs.length = MAX_RUNS_TO_RETAIN ∧
    (startRuns wStepA wRuns).2 = wRuns.take (wRuns.length - MAX_RUNS_TO_RETAIN)) :=
  ⟨⟨rfl, by decide⟩, runs_retention wStepA wRuns rfl (by decide)⟩

/-! ### Step-name/tag resolution and the manual state commands
(src/model.ts lines 274-286, src/miniflow.ts lines 405-501) -/

/-- The steps matching one name/tag token:
`x.name == stepName || x.tags.includes(stepName)`. -/
def matchesOf (fl : Flow) (n : String) : List Step :=
  fl.steps.filter (fun x => decide (x.name = n ∨ n ∈ x.tags))

/-- `Flow.resolveSteps` from src/model.ts lines 274-286: resolve each token
in order, collecting every match; the first token with zero matches throws,
aborting the whole command before any state is mutated. -/
def resolveSteps (fl : Flow) : List String → Except String (List Step)
  | [] => Except.ok []
  | n :: rest =>
    let found := matchesOf fl n
    if found = [] then
      Except.error ("Error: could not find any steps for " ++ n)
    else
      match resolveSteps fl rest with
      | Except.error e => Except.error e
      | Except.ok l => Except.ok (found ++ l)

/-- The transition loop shared by `cmdSet`/`cmdDisable` (and `cmdReset`'s
per-step transition). -/
def applyTransitions (fl : Flow) (l : List Step) (target : StepState) : Flow :=
  l.foldl (fun f s => transitionStep f s.name target) fl

/-- `cmdSet` (src/miniflow.ts lines 479-501), after argument parsing:
resolve, transition every resolved step to the requested state, clean. -/
def cmdSetF (fl : Flow) (target : StepState) (names : List String) : Except String Flow :=
  match resolveSteps fl names with
  | Except.error e => Except.error e
  | Except.ok steps => Except.ok (Flow.clean (applyTransitions fl steps target))

/-- `cmdDisable` (src/miniflow.ts lines 437-456). -/
def cmdDisableF (fl : Flow) (names : List String) : Except String Flow :=
  match resolveSteps fl names with
  | Except.error e => Except.error e
  | Except.ok steps =>
    if steps.length = 0 then Except.error "Error: no steps provided"
    else Except.ok (Flow.clean (applyTransitions fl steps StepState.disabled))

/-- The enable loop (src/miniflow.ts lines 469-471):
`step.transition(step.prevState ?? StepState.none)`, reading the live
object at transition time. -/
def applyEnable (fl : Flow) (l : List Step) : Flow :=
  l.foldl (fun f s =>
    transitionStep f s.name ((((findStep? f s.name).getD s).prevState).getD StepState.none)) fl

/-- `cmdEnable` (src/miniflow.ts lines 458-477). -/
def cmdEnableF (fl : Flow) (names : List String) : Except String Flow :=
  match resolveSteps fl names with
  | Except.error e => Except.error e
  | Except.ok steps =>
    if steps.length = 0 then Except.error "Error: no steps provided"
    else Except.ok (Flow.clean (applyEnable fl steps))

/-- `cmdReset` (src/miniflow.ts lines 405-435): named steps (or all steps)
to `none`, cascading to descendants unless `--only`, then clean. -/
def cmdResetF (fl : Flow) (only : Bool) (names : List String) : Except String Flow :=
  match (if names = [] then Except.ok fl.steps else resolveSteps fl names) with
  | Except.error e => Except.error e
  | Except.ok steps =>
    Except.ok (Flow.clean (steps.foldl (fun f s =>
      let f1 := transitionStep f s.name StepState.none
      if only then f1
      else s.descendants.foldl (fun g d => transitionStep g d StepState.none) f1) fl))

/-- **C9.**  Every supplied name resolves as an exact step name or as a tag
(collecting every step carrying the tag); when every token matches, the
resolved list is their concatenation in token order, and when any token has
zero matches, `resolveSteps` and with it all of set/reset/disable/enable
fail — in this functional embedding the command returns `Except.error`
without producing any mutated flow, which is the source's throw-before-
mutation (resolution precedes every transition). -/
theorem resolveSteps_ok (fl : Flow) (names : List String)
    (hall : ∀ n ∈ names, matchesOf fl n ≠ []) :
    resolveSteps fl names = Except.ok (names.flatMap (fun n => matchesOf fl n)) := by
  induction names with
  | nil => rfl
  | cons n rest ih =>
    unfold resolveSteps
    rw [if_neg (hall n (List.mem_cons_self n rest))]
    rw [ih (fun m hm => hall m (List.mem_cons_of_mem n hm))]
    rw [List.flatMap_cons]

theorem resolveSteps_err (fl : Flow) (names : List String)
    (hex : ∃ n ∈ names, matchesOf fl n = []) :
    ∃ e, resolveSteps fl names = Except.error e := by
  induction names with
  | nil =>
    obtain ⟨n, hn, _⟩ := hex
    cases hn
  | cons n rest ih =>
    obtain ⟨m, hm, hmz⟩ := hex
    unfold resolveSteps
    by_cases hz : matchesOf fl n = []
    · rw [if_pos hz]
      exact ⟨_, rfl⟩
    · rw [if_neg hz]
      rcases List.mem_cons.mp hm with rfl | hmem
      · exact absurd hmz hz
      · obtain ⟨e, he⟩ := ih ⟨m, hmem, hmz⟩
        rw [he]
        exact ⟨e, rfl⟩

theorem resolve_abort_semantics (fl : Flow) (names : List String)
    (target : StepState) (only : Bool) :
    ((∀ n ∈ names, matchesOf fl n ≠ []) →
      resolveSteps fl names = Except.ok (names.flatMap (fun n => matchesOf fl n))) ∧
    ((∃ n ∈ names, matchesOf fl n = []) →
      (∃ e, resolveSteps fl names = Except.error e) ∧
      (∃ e, cmdSetF fl target names = Except.error e) ∧
      (∃ e, cmdResetF fl only names = Except.error e) ∧
      (∃ e, cmdDisableF fl names = Except.error e) ∧
      (∃ e, cmdEnableF fl names = Except.error e)) := by
  refine ⟨resolveSteps_ok fl names, fun hex => ?_⟩
  obtain ⟨e, he⟩ := resolveSteps_err fl names hex
  have hne : names ≠ [] := by
    obtain ⟨m, hm, _⟩ := hex
    intro hc
    rw [hc] at hm
    cases hm
  refine ⟨⟨e, he⟩, ⟨e, ?_⟩, ⟨e, ?_⟩, ⟨e, ?_⟩, ⟨e, ?_⟩⟩
  · unfold cmdSetF; rw [he]
  · unfold cmdResetF; rw [if_neg hne, he]
  · unfold cmdDisableF; rw [he]
  · unfold cmdEnableF; rw [he]

/-- Witness for `resolve_abort_semantics`: both implications discharged at
concrete inputs against `wFlow`. -/
theorem resolve_abort_semantics_witness :
    ((∀ n ∈ ["a", "b"], matchesOf wFlow n ≠ []) ∧
      resolveSteps wFlow ["a", "b"] =
        Except.ok (["a", "b"].flatMap (fun n => matchesOf wFlow n))) ∧
    ((∃ n ∈ ["zzz"], matchesOf wFlow n = []) ∧
      (∃ e, cmdSetF wFlow StepState.none ["zzz"] = Except.error e) ∧
      (∃ e, cmdDisableF wFlow ["zzz"] = Except.error e)) :=
  ⟨⟨by decide, (resolve_abort_semantics wFlow ["a", "b"] StepState.none false).1 (by decide)⟩,
   ⟨by decide,
    ((resolve_abort_semantics wFlow ["zzz"] StepState.none false).2 (by decide)).2.1,
    ((resolve_abort_semantics wFlow ["zzz"] StepState.none false).2 (by decide)).2.2.2.1⟩⟩

/-! ### Enable semantics (claim C6) -/

theorem transitionF_state (s : Step) (t : StepState) : (s.transitionF t).state = t := by
  unfold Step.transitionF
  split
  · next h => exact h.symm
  · rfl

theorem applyEnable_untouched (fl : Flow) (l : List Step) (n : String)
    (hn : ¬ n ∈ l.map (fun s => s.name)) :
    findStep? (applyEnable fl l) n = findStep? fl n := by
  induction l generalizing fl with
  | nil => rfl
  | cons s l ih =>
    simp only [List.map_cons, List.mem_cons] at hn
    push_neg at hn
    unfold applyEnable
    rw [List.foldl_cons]
    have := ih (transitionStep fl s.name
      ((((findStep? fl s.name).getD s).prevState).getD StepState.none)) hn.2
    unfold applyEnable at this
    rw [this, findStep?_transitionStep_other _ _ _ _ hn.1]

/-- **C6 (amended).**  The enable loop transitions every resolved step to
its recorded `prevState`, falling back to `none` when absent (first
conjunct); and because `transition` is a no-op when the target equals the
current state, a second consecutive disable of an already-disabled step
leaves its entry — `prevState` included — completely unchanged, rather than
losing the earlier `prevState` (second conjunct). -/
theorem enable_restores_prevState (fl : Flow) (l : List Step)
    (hsub : ∀ s ∈ l, findStep? fl s.name = some s)
    (hlnd : (l.map (fun s => s.name)).Nodup) :
    (∀ s ∈ l, (findStep? (applyEnable fl l) s.name).map (fun t => t.state) =
      some (s.prevState.getD StepState.none)) ∧
    (∀ (g : Flow) (n : String) (s : Step), findStep? g n = some s →
      s.state = StepState.disabled →
      findStep? (transitionStep g n StepState.disabled) n = some s) := by
  constructor
  · induction l generalizing fl with
    | nil => intro s hs; cases hs
    | cons s0 l ih =>
      intro s hs
      simp only [List.map_cons, List.nodup_cons] at hlnd
      have hfound : findStep? fl s0.name = some s0 := hsub s0 (List.mem_cons_self s0 l)
      have hstep : applyEnable fl (s0 :: l) =
          applyEnable (transitionStep fl s0.name (s0.prevState.getD StepState.none)) l := by
        unfold applyEnable
        rw [List.foldl_cons, hfound]
        rfl
      rcases List.mem_cons.mp hs with rfl | hmem
      · rw [hstep]
        rw [applyEnable_untouched _ _ _ (by
          intro hc
          exact hlnd.1 hc)]
        unfold transitionStep
        rw [findStep?_modifyStep_self fl s.name
          (fun u => u.transitionF (s.prevState.getD StepState.none))
          (fun u => transitionF_name u _) s hfound]
        simp [transitionF_state]
      · have hsub2 : ∀ t ∈ l, findStep?
            (transitionStep fl s0.name (s0.prevState.getD StepState.none)) t.name = some t := by
          intro t ht
          rw [findStep?_transitionStep_other _ _ _ _ (by
            intro hc
            exact hlnd.1 (hc ▸ (List.mem_map.mpr ⟨t, ht, rfl⟩)))]
          exact hsub t (List.mem_cons_of_mem s0 ht)
        rw [hstep]
        exact ih _ hsub2 hlnd.2 s hmem
  · intro g n s hfind hdis
    have hnoop : s.transitionF StepState.disabled = s := by
      unfold Step.transitionF
      rw [if_pos hdis.symm]
    unfold transitionStep
    rw [findStep?_modifyStep_self g n (fun u => u.transitionF StepState.disabled)
      (fun u => transitionF_name u _) s hfind, hnoop]

/-- Fixture: a single-step flow whose step succeeded and is clean. -/
def wFlowD : Flow :=
  { steps := [{ name := "a", state := StepState.succeeded, isDirty := false }] }

/-- `wFlowD` after `disable a`. -/
def wD1 : Flow :=
  match cmdDisableF wFlowD ["a"] with
  | Except.ok f => f
  | Except.error _ => wFlowD

/-- `wD1` after a second consecutive `disable a`. -/
def wD2 : Flow :=
  match cmdDisableF wD1 ["a"] with
  | Except.ok f => f
  | Except.error _ => wFlowD

/-- `wD2` after `enable a`. -/
def wD3 : Flow :=
  match cmdEnableF wD2 ["a"] with
  | Except.ok f => f
  | Except.error _ => wFlowD

/-- Counterexample to C6 as stated: after `disable a; disable a` the
recorded `prevState` is still `succeeded` — the second consecutive disable
is a no-op (`transition` returns early on an equal state) and does NOT lose
the earlier `prevState`; the following `enable` restores `succeeded`, not
`none` or `disabled` as the lost-prevState reading would predict. -/
theorem enable_double_disable_counterexample :
    cmdDisableF wFlowD ["a"] = Except.ok wD1 ∧
    cmdDisableF wD1 ["a"] = Except.ok wD2 ∧
    cmdEnableF wD2 ["a"] = Except.ok wD3 ∧
    (findStep? wD1 "a").map (fun s => s.prevState) = some (some StepState.succeeded) ∧
    (findStep? wD2 "a").map (fun s => s.prevState) = some (some StepState.succeeded) ∧
    (findStep? wD3 "a").map (fun s => s.state) = some StepState.succeeded := by
  refine ⟨by rfl, by rfl, by rfl, by decide, by decide, by decide⟩

/-- Witness for `enable_restores_prevState` at the concrete disabled flow. -/
theorem enable_restores_prevState_witness :
    ((∀ s ∈ wD1.steps, findStep? wD1 s.name = some s) ∧
      (wD1.steps.map (fun s => s.name)).Nodup) ∧
    ((∀ s ∈ wD1.steps, (findStep? (applyEnable wD1 wD1.steps) s.name).map
        (fun t => t.state) = some (s.prevState.getD StepState.none)) ∧
    (∀ (g : Flow) (n : String) (s : Step), findStep? g n = some s →
      s.state = StepState.disabled →
      findStep? (transitionStep g n StepState.disabled) n = some s)) :=
  ⟨⟨by decide, by decide⟩,
    enable_restores_prevState wD1 wD1.steps (by decide) (by decide)⟩

/-! ### Unknown-field handling (claim C5) -/

theorem mapMExcept_append_error {α β : Type} (f : α → Except String β)
    (pre : List α) (x : α) (post : List α) (e : String)
    (hpre : ∀ a ∈ pre, ∃ b, f a = Except.ok b) (hx : f x = Except.error e) :
    mapMExcept f (pre ++ x :: post) = Except.error e := by
  induction pre with
  | nil =>
    rw [List.nil_append]
    unfold mapMExcept
    rw [hx]
  | cons a pre ih =>
    rw [List.cons_append]
    unfold mapMExcept
    obtain ⟨b, hb⟩ := hpre a (List.mem_cons_self a pre)
    rw [hb, ih (fun a ha => hpre a (List.mem_cons_of_mem _ ha))]

/-- **C5 (amended).**  Unknown fields are never silently ignored:
construction fails.  But they are fail-fast throws, not collected — the
top-level check fires first and alone, and otherwise the first step (in
declaration order) carrying an unknown key throws its own message, without
aggregation with malformed-dependency, missing-dependency, or cycle
errors. -/
theorem unknownField_failfast (toml : FlowToml) (st : StateJson) :
    (toml.extraKeys ≠ [] →
      flowNew toml st = Except.error (unexpectedKeysMsg "at toplevel" toml.extraKeys)) ∧
    (∀ (pre : List (String × StepToml)) (n : String) (stoml : StepToml)
        (post : List (String × StepToml)),
      toml.extraKeys = [] →
      toml.steps = pre ++ (n, stoml) :: post →
      (∀ p ∈ pre, ∃ s, mkStep p.1 p.2 (lookupState st p.1) = Except.ok s) →
      stoml.extraKeys ≠ [] →
      flowNew toml st =
        Except.error (unexpectedKeysMsg ("in step " ++ n) stoml.extraKeys)) := by
  constructor
  · intro hk
    unfold flowNew ensureOnlyKeys
    rw [if_neg hk]
  · intro pre n stoml post hk hsteps hpre hsk
    unfold flowNew
    have hek : ensureOnlyKeys toml.extraKeys "at toplevel" = Except.ok () := by
      unfold ensureOnlyKeys
      rw [if_pos hk]
    rw [hek]
    have hmk : mkStep n stoml (lookupState st n) =
        Except.error (unexpectedKeysMsg ("in step " ++ n) stoml.extraKeys) := by
      unfold mkStep ensureOnlyKeys
      rw [if_neg hsk]
    have hms : mkSteps0 toml st =
        Except.error (unexpectedKeysMsg ("in step " ++ n) stoml.extraKeys) := by
      unfold mkSteps0
      rw [hsteps]
      exact mapMExcept_append_error _ pre (n, stoml) post _ hpre hmk
    rw [hms]

/-- Spec with a missing dependency in step `a` and an unknown field in
step `b` — the claimed aggregation would report both. -/
def cTomlC5 : FlowToml := { steps := [
  ("a", { cmd := "x", deps := DepsField.arr ["nope"] }),
  ("b", { cmd := "y", extraKeys := ["foo"] })] }

/-- Counterexample to C5 as stated: a spec with both an unknown step field
and a missing dependency fails with only the unknown-key message — the
missing-dependency error is not aggregated into it (the message does not
even contain the substring `Dependency not found`). -/
theorem unknownField_failfast_counterexample :
    flowNew cTomlC5 { version := 1, steps := [] } =
      Except.error "Unexpected key(s) in step b: foo" ∧
    depsFieldOf cTomlC5 "a" = DepsField.arr ["nope"] ∧
    (¬ "nope" ∈ cTomlC5.steps.map (fun p => p.1)) ∧
    ¬ List.IsInfix ("Dependency not found".toList)
        ("Unexpected key(s) in step b: foo".toList) := by
  refine ⟨by rfl, by rfl, by decide, by decide⟩

/-- Witness for `unknownField_failfast`, both parts at concrete inputs. -/
theorem unknownField_failfast_witness :
    (({ steps := [], extraKeys := ["bogus"] } : FlowToml).extraKeys ≠ [] ∧
      flowNew { steps := [], extraKeys := ["bogus"] } { version := 1, steps := [] } =
        Except.error (unexpectedKeysMsg "at toplevel" ["bogus"])) ∧
    (cTomlC5.extraKeys = [] ∧
      flowNew cTomlC5 { version := 1, steps := [] } =
        Except.error (unexpectedKeysMsg ("in step " ++ "b") ["foo"])) :=
  ⟨⟨by decide,
    (unknownField_failfast { steps := [], extraKeys := ["bogus"] }
      { version := 1, steps := [] }).1 (by decide)⟩,
   ⟨rfl,
    (unknownField_failfast cTomlC5 { version := 1, steps := [] }).2
      [("a", { cmd := "x", deps := DepsField.arr ["nope"] })] "b"
      { cmd := "y", extraKeys := ["foo"] } [] rfl rfl
      (by
        intro p hp
        simp only [List.mem_singleton] at hp
        subst hp
        exact ⟨_, rfl⟩)
      (by decide)⟩⟩

/-! ### The dependency relation and the ancestors closure (claim C4) -/

/-- One dependency edge of the resolved graph: `y` is a direct dependency
of the step named `x`. -/
def EdgeN (steps : List Step) (x y : String) : Prop :=
  y ∈ depsOfL steps x

instance (steps : List Step) (x y : String) : Decidable (EdgeN steps x y) := by
  unfold EdgeN
  infer_instance

theorem nodup_subset_length {l₁ l₂ : List String} (h₁ : l₁.Nodup)
    (h₂ : ∀ x ∈ l₁, x ∈ l₂) : l₁.length ≤ l₂.length := by
  classical
  calc l₁.length = l₁.toFinset.card := (List.toFinset_card_of_nodup h₁).symm
    _ ≤ l₂.toFinset.card := Finset.card_le_card
        (fun x hx => List.mem_toFinset.mpr (h₂ x (List.mem_toFinset.mp hx)))
    _ ≤ l₂.length := l₂.toFinset_card_le

theorem accumAnc_spec (steps : List Step)
    (hclosed : ∀ x d, d ∈ depsOfL steps x → d ∈ steps.map (fun t => t.name)) :
    ∀ (fuel : Nat) (acc : List String) (s : String),
      (steps.map (fun t => t.name)).length + 1 ≤ fuel + acc.length →
      acc.Nodup → (∀ x ∈ acc, x ∈ steps.map (fun t => t.name)) →
      (∀ x ∈ acc, x ∈ accumAnc steps fuel acc s) ∧
      (accumAnc steps fuel acc s).Nodup ∧
      (∀ x ∈ accumAnc steps fuel acc s, x ∈ steps.map (fun t => t.name)) ∧
      (∀ d ∈ depsOfL steps s, d ∈ accumAnc steps fuel acc s) ∧
      (∀ x ∈ accumAnc steps fuel acc s, x ∉ acc →
        ∀ d ∈ depsOfL steps x, d ∈ accumAnc steps fuel acc s) ∧
      (∀ x ∈ accumAnc steps fuel acc s, x ∈ acc ∨
        Relation.TransGen (EdgeN steps) s x) := by
  intro fuel
  induction fuel with
  | zero =>
    intro acc s harith hnd hsubn
    exfalso
    have := nodup_subset_length hnd hsubn
    omega
  | succ fuel ih =>
    intro acc s harith hnd hsubn
    have hfold : ∀ (ds : List String), (∀ d ∈ ds, EdgeN steps s d) →
        ∀ (A : List String),
        (∀ x ∈ acc, x ∈ A) → A.Nodup → (∀ x ∈ A, x ∈ steps.map (fun t => t.name)) →
        (∀ x ∈ A, x ∉ acc → ∀ d ∈ depsOfL steps x, d ∈ A) →
        (∀ x ∈ A, x ∈ acc ∨ Relation.TransGen (EdgeN steps) s x) →
        (∀ x ∈ A, x ∈ ds.foldl
          (fun acc2 d => if d ∈ acc2 then acc2 else accumAnc steps fuel (acc2 ++ [d]) d) A) ∧
        (ds.foldl
          (fun acc2 d => if d ∈ acc2 then acc2 else accumAnc steps fuel (acc2 ++ [d]) d) A).Nodup ∧
        (∀ x ∈ ds.foldl
          (fun acc2 d => if d ∈ acc2 then acc2 else accumAnc steps fuel (acc2 ++ [d]) d) A,
          x ∈ steps.map (fun t => t.name)) ∧
        (∀ d ∈ ds, d ∈ ds.foldl
          (fun acc2 d => if d ∈ acc2 then acc2 else accumAnc steps fuel (acc2 ++ [d]) d) A) ∧
        (∀ x ∈ ds.foldl
          (fun acc2 d => if d ∈ acc2 then acc2 else accumAnc steps fuel (acc2 ++ [d]) d) A,
          x ∉ acc → ∀ d ∈ depsOfL steps x, d ∈ ds.foldl
            (fun acc2 d => if d ∈ acc2 then acc2 else accumAnc steps fuel (acc2 ++ [d]) d) A) ∧
        (∀ x ∈ ds.foldl
          (fun acc2 d => if d ∈ acc2 then acc2 else accumAnc steps fuel (acc2 ++ [d]) d) A,
          x ∈ acc ∨ Relation.TransGen (EdgeN steps) s x) := by
      intro ds
      induction ds with
      | nil =>
        intro _ A hAacc hAnd hAn hAJ hAS
        simp only [List.foldl_nil]
        exact ⟨fun x hx => hx, hAnd, hAn, fun d hd => absurd hd (List.not_mem_nil d), hAJ, hAS⟩
      | cons d ds ihds =>
        intro hds A hAacc hAnd hAn hAJ hAS
        rw [List.foldl_cons]
        by_cases hdA : d ∈ A
        · rw [if_pos hdA]
          obtain ⟨c1, c2, c3, c4, c5, c6⟩ :=
            ihds (fun e he => hds e (List.mem_cons_of_mem d he)) A hAacc hAnd hAn hAJ hAS
          refine ⟨c1, c2, c3, ?_, c5, c6⟩
          intro e he
          rcases List.mem_cons.mp he with rfl | hmem
          · exact c1 e hdA
          · exact c4 e hmem
        · rw [if_neg hdA]
          have hdn : d ∈ steps.map (fun t => t.name) :=
            hclosed s d (hds d (List.mem_cons_self d ds))
          have hAlen : acc.length ≤ A.length := nodup_subset_length hnd hAacc
          have hnd2 : (A ++ [d]).Nodup := by
            rw [List.nodup_append]
            exact ⟨hAnd, List.nodup_singleton d,
              fun x hx => by simp only [List.mem_singleton]; intro hc; exact hdA (hc ▸ hx)⟩
          obtain ⟨c1, c2, c3, c4, c5, c6⟩ := ih (A ++ [d]) d
            (by rw [List.length_append, List.length_singleton]; omega)
            hnd2
            (by
              intro x hx
              rcases List.mem_append.mp hx with hx | hx
              · exact hAn x hx
              · rw [List.mem_singleton.mp hx]; exact hdn)
          have hsubA : ∀ x ∈ A, x ∈ accumAnc steps fuel (A ++ [d]) d :=
            fun x hx => c1 x (List.mem_append.mpr (Or.inl hx))
          have hsubd : d ∈ accumAnc steps fuel (A ++ [d]) d :=
            c1 d (List.mem_append.mpr (Or.inr (List.mem_singleton_self d)))
          have hJ2 : ∀ x ∈ accumAnc steps fuel (A ++ [d]) d, x ∉ acc →
              ∀ e ∈ depsOfL steps x, e ∈ accumAnc steps fuel (A ++ [d]) d := by
            intro x hx hxacc e he
            by_cases hxAd : x ∈ A ++ [d]
            · rcases List.mem_append.mp hxAd with hxA | hxd
              · exact hsubA e (hAJ x hxA hxacc e he)
              · rw [List.mem_singleton.mp hxd] at he
                exact c4 e he
            · exact c5 x hx hxAd e he
          have hS2 : ∀ x ∈ accumAnc steps fuel (A ++ [d]) d,
              x ∈ acc ∨ Relation.TransGen (EdgeN steps) s x := by
            intro x hx
            rcases c6 x hx with hxAd | htg
            · rcases List.mem_append.mp hxAd with hxA | hxd
              · exact hAS x hxA
              · rw [List.mem_singleton.mp hxd]
                exact Or.inr (Relation.TransGen.single (hds d (List.mem_cons_self d ds)))
            · exact Or.inr (Relation.TransGen.head (hds d (List.mem_cons_self d ds)) htg)
          obtain ⟨e1, e2, e3, e4, e5, e6⟩ :=
            ihds (fun e he => hds e (List.mem_cons_of_mem d he))
              (accumAnc steps fuel (A ++ [d]) d)
              (fun x hx => hsubA x (hAacc x hx)) c2 c3 hJ2 hS2
          refine ⟨fun x hx => e1 x (hsubA x hx), e2, e3, ?_, e5, e6⟩
          intro e he
          rcases List.mem_cons.mp he with rfl | hmem
          · exact e1 e hsubd
          · exact e4 e hmem
    simp only [accumAnc]
    exact hfold (depsOfL steps s) (fun d hd => hd) acc
      (fun x hx => hx) hnd hsubn
      (fun x hx hxacc => absurd hx hxacc)
      (fun x hx => Or.inl hx)

/-- The `ancestors` accumulator started on the empty set computes exactly
the transitive closure of the resolved dependency relation. -/
theorem accumAnc_eq_reach (steps : List Step)
    (hclosed : ∀ x d, d ∈ depsOfL steps x → d ∈ steps.map (fun t => t.name))
    (s x : String) :
    x ∈ accumAnc steps (steps.length + 1) [] s ↔
      Relation.TransGen (EdgeN steps) s x := by
  obtain ⟨c1, c2, c3, c4, c5, c6⟩ := accumAnc_spec steps hclosed (steps.length + 1) [] s
    (by rw [List.length_map]; omega) List.nodup_nil
    (fun x hx => absurd hx (List.not_mem_nil x))
  constructor
  · intro hx
    rcases c6 x hx with hmem | htg
    · cases hmem
    · exact htg
  · intro htg
    induction htg with
    | single hedge => exact c4 _ hedge
    | tail _ hedge ihx => exact c5 _ ihx (List.not_mem_nil _) _ hedge

theorem map_name_of_preserve (l : List Step) (f : Step → Step)
    (hf : ∀ u, (f u).name = u.name) :
    (l.map f).map (fun s => s.name) = l.map (fun s => s.name) := by
  rw [List.map_map]
  apply List.map_congr_left
  intro u _
  exact hf u

theorem depsOfL_map_preserve (l : List Step) (f : Step → Step)
    (hf : ∀ u, (f u).name = u.name) (hd : ∀ u, (f u).deps = u.deps) (n : String) :
    depsOfL (l.map f) n = depsOfL l n := by
  unfold depsOfL
  rw [find?_map_preserve l f hf n]
  cases l.find? (fun s => s.name = n) with
  | none => rfl
  | some t => simp [hd]

theorem depsOfL_addAncestors (l : List Step) (n : String) :
    depsOfL (addAncestors l) n = depsOfL l n := by
  unfold addAncestors
  apply depsOfL_map_preserve
  · intro u; rfl
  · intro u; rfl

theorem depsOfL_addDescendants (l : List Step) (n : String) :
    depsOfL (addDescendants l) n = depsOfL l n := by
  unfold addDescendants
  apply depsOfL_map_preserve
  · intro u; rfl
  · intro u; rfl

theorem depsOfL_addDirectDescendants (l : List Step) (n : String) :
    depsOfL (addDirectDescendants l) n = depsOfL l n := by
  unfold addDirectDescendants
  apply depsOfL_map_preserve
  · intro u; rfl
  · intro u; rfl

theorem names_resolvedSteps (toml : FlowToml) (steps0 : List Step) :
    (resolvedSteps toml steps0).map (fun s => s.name) = steps0.map (fun s => s.name) := by
  unfold resolvedSteps
  apply map_name_of_preserve
  intro u; rfl

theorem names_addAncestors (l : List Step) :
    (addAncestors l).map (fun s => s.name) = l.map (fun s => s.name) := by
  unfold addAncestors
  apply map_name_of_preserve
  intro u; rfl

theorem resolvedSteps_closed (toml : FlowToml) (steps0 : List Step) :
    ∀ x d, d ∈ depsOfL (resolvedSteps toml steps0) x →
      d ∈ (resolvedSteps toml steps0).map (fun t => t.name) := by
  intro x d hd
  unfold depsOfL at hd
  cases hfind : (resolvedSteps toml steps0).find? (fun s => s.name = x) with
  | none =>
    rw [hfind] at hd
    cases hd
  | some t =>
    rw [hfind] at hd
    have hd2 : d ∈ t.deps := hd
    have hmem := List.mem_of_find?_eq_some hfind
    unfold resolvedSteps at hmem
    obtain ⟨u, hu, rfl⟩ := List.mem_map.mp hmem
    have hd3 : d ∈ resolvedDepsOf (steps0.map (fun t => t.name))
        (depsFieldOf toml u.name) := hd2
    unfold resolvedDepsOf at hd3
    cases hdf : depsFieldOf toml u.name with
    | absent => rw [hdf] at hd3; cases hd3
    | malformed => rw [hdf] at hd3; cases hd3
    | arr l =>
      rw [hdf] at hd3
      have hfl := List.mem_filter.mp hd3
      rw [names_resolvedSteps]
      exact of_decide_eq_true hfl.2

theorem nodup_name_unique (l : List Step)
    (hnd : (l.map (fun s => s.name)).Nodup) (t t' : Step)
    (ht : t ∈ l) (ht' : t' ∈ l) (hname : t.name = t'.name) : t = t' := by
  obtain ⟨u, hu⟩ := find?_name_isSome l t.name (List.mem_map.mpr ⟨t, ht, rfl⟩)
  have h1 := nodup_find?_unique l t.name u hnd hu t ht rfl
  have h2 := nodup_find?_unique l t.name u hnd hu t' ht' hname.symm
  rw [h1, h2]

theorem mem_steps4_inv (steps2 : List Step) (x : Step)
    (hx : x ∈ addDirectDescendants (addDescendants steps2)) :
    ∃ x2 ∈ steps2, x.name = x2.name ∧ x.ancestors = x2.ancestors ∧
      x.descendants =
        (steps2.filter (fun t => decide (x2.name ∈ t.ancestors))).map (fun t => t.name) := by
  unfold addDirectDescendants at hx
  obtain ⟨y, hy, rfl⟩ := List.mem_map.mp hx
  unfold addDescendants at hy
  obtain ⟨x2, hx2, rfl⟩ := List.mem_map.mp hy
  exact ⟨x2, hx2, rfl, rfl, rfl⟩

theorem mem_addAncestors_inv2 (l : List Step) (x2 : Step) (hx2 : x2 ∈ addAncestors l) :
    ∃ x1 ∈ l, x2.name = x1.name ∧
      x2.ancestors = accumAnc l (l.length + 1) [] x1.name := by
  unfold addAncestors at hx2
  obtain ⟨x1, hx1, rfl⟩ := List.mem_map.mp hx2
  exact ⟨x1, hx1, rfl, rfl⟩

/-- **C4.**  In every successfully constructed flow, `s ∈ a.descendants`
iff `a ∈ s.ancestors`, and `ancestors` is exactly the transitive closure of
the resolved dependency relation of the flow's steps.  The key-`Nodup`
hypothesis models TOML table keys being unique. -/
theorem ancestors_descendants_duality (toml : FlowToml) (st : StateJson) (fl : Flow)
    (hkeys : (toml.steps.map (fun p => p.1)).Nodup)
    (h : flowNew toml st = Except.ok fl) :
    ∀ s ∈ fl.steps, ∀ a ∈ fl.steps,
      (s.name ∈ a.descendants ↔ a.name ∈ s.ancestors) ∧
      (a.name ∈ s.ancestors ↔ Relation.TransGen (EdgeN fl.steps) s.name a.name) := by
  obtain ⟨-, steps0, hs0, -, -, hsteps⟩ := flowNew_ok_inv toml st fl h
  have hnames1 : (resolvedSteps toml steps0).map (fun s => s.name) =
      steps0.map (fun s => s.name) := names_resolvedSteps toml steps0
  have hnd1 : ((resolvedSteps toml steps0).map (fun s => s.name)).Nodup := by
    rw [hnames1, mkSteps0_ok_names toml st steps0 hs0]
    exact hkeys
  have hnd2 : ((addAncestors (resolvedSteps toml steps0)).map (fun s => s.name)).Nodup := by
    rw [names_addAncestors]
    exact hnd1
  have hclosed1 := resolvedSteps_closed toml steps0
  have hE : EdgeN fl.steps = EdgeN (resolvedSteps toml steps0) := by
    funext x y
    apply propext
    unfold EdgeN
    rw [hsteps, depsOfL_addDirectDescendants, depsOfL_addDescendants, depsOfL_addAncestors]
  intro s hs a ha
  rw [hsteps] at hs ha
  obtain ⟨s2, hs2, hsname, hsanc, hsdesc⟩ := mem_steps4_inv _ s hs
  obtain ⟨a2, ha2, haname, haanc, hadesc⟩ := mem_steps4_inv _ a ha
  constructor
  · constructor
    · intro hmem
      rw [hadesc] at hmem
      obtain ⟨t, ht, htn⟩ := List.mem_map.mp hmem
      have htf := List.mem_filter.mp ht
      have ht2 : t = s2 :=
        nodup_name_unique _ hnd2 t s2 htf.1 hs2 (htn.trans hsname)
      have hta : a2.name ∈ t.ancestors := of_decide_eq_true htf.2
      rw [ht2] at hta
      rw [hsanc, haname]
      exact hta
    · intro hmem
      rw [hadesc]
      apply List.mem_map.mpr
      refine ⟨s2, List.mem_filter.mpr ⟨hs2, ?_⟩, hsname.symm⟩
      apply decide_eq_true
      rw [hsanc, haname] at hmem
      exact hmem
  · obtain ⟨s1, hs1, hs2name, hs2anc⟩ := mem_addAncestors_inv2 _ s2 hs2
    have hanc : s.ancestors =
        accumAnc (resolvedSteps toml steps0)
          ((resolvedSteps toml steps0).length + 1) [] s.name := by
      rw [hsanc, hs2anc, hsname, hs2name]
    rw [hanc, hE]
    exact accumAnc_eq_reach (resolvedSteps toml steps0) hclosed1 s.name a.name

/-- Witness for `ancestors_descendants_duality` at the concrete flow
`wFlowC`. -/
theorem ancestors_descendants_duality_witness :
    ((wToml.steps.map (fun p => p.1)).Nodup ∧
      flowNew wToml wState = Except.ok wFlowC) ∧
    (∀ s ∈ wFlowC.steps, ∀ a ∈ wFlowC.steps,
      (s.name ∈ a.descendants ↔ a.name ∈ s.ancestors) ∧
      (a.name ∈ s.ancestors ↔ Relation.TransGen (EdgeN wFlowC.steps) s.name a.name)) :=
  ⟨⟨by decide, by rfl⟩,
    ancestors_descendants_duality wToml wState wFlowC (by decide) (by rfl)⟩

/-! ### C3: cycle detection.

`checkCycles` explores every dependency path from every step; whenever the
path revisits one of its own nodes the whole path (ending in the revisited
node) is recorded, and the constructor aggregates the recorded paths into
the `Cyclical dependencies found` line of the thrown message.  Below:
completeness (a cycle in the resolved relation makes the scan record at
least one path) and soundness (every recorded path contains a genuine
cycle of the relation, so the message names every step of that cycle). -/

theorem edge_source_mem (steps : List Step) (x y : String) (h : EdgeN steps x y) :
    x ∈ steps.map (fun t => t.name) := by
  unfold EdgeN depsOfL at h
  cases hfind : steps.find? (fun s => s.name = x) with
  | none => rw [hfind] at h; cases h
  | some t =>
    have hp := List.find?_some hfind
    have hx : t.name = x := by simpa using hp
    exact List.mem_map.mpr ⟨t, List.mem_of_find?_eq_some hfind, hx⟩

theorem flatMap_ne_nil_of_mem {α β : Type} (l : List α) (f : α → List β)
    (x : α) (hx : x ∈ l) (hfx : f x ≠ []) : l.flatMap f ≠ [] := by
  obtain ⟨b, hb⟩ := List.exists_mem_of_ne_nil (f x) hfx
  intro hnil
  have hmem : b ∈ l.flatMap f := List.mem_flatMap.mpr ⟨x, hx, hb⟩
  rw [hnil] at hmem
  cases hmem

/-- Completeness of the DFS: from a start node that can reach the current
path (or itself) along a nonempty dependency chain, `checkCycles` records
at least one path.  The fuel bound mirrors `accumAnc_spec`: the path is
duplicate-free, so it never exceeds the number of steps. -/
theorem checkCycles_finds (steps : List Step)
    (hclosed : ∀ x d, d ∈ depsOfL steps x → d ∈ steps.map (fun t => t.name)) :
    ∀ (fuel : Nat) (s : String) (seen : List String),
      (steps.map (fun t => t.name)).length + 1 ≤ fuel + seen.length →
      seen.Nodup → (∀ x ∈ seen, x ∈ steps.map (fun t => t.name)) →
      s ∈ steps.map (fun t => t.name) →
      (s ∈ seen ∨ ∃ l, l ≠ [] ∧ List.Chain (EdgeN steps) s l ∧
        ∃ t, l.getLast? = some t ∧ (t ∈ seen ∨ t = s)) →
      checkCycles steps fuel s seen ≠ [] := by
  intro fuel
  induction fuel with
  | zero =>
    intro s seen harith hnd hsub _ _
    have hle := nodup_subset_length hnd hsub
    omega
  | succ fuel ih =>
    intro s seen harith hnd hsub hs hpath
    simp only [checkCycles]
    by_cases hmem : s ∈ seen
    · rw [if_pos hmem]
      exact List.cons_ne_nil _ _
    · rw [if_neg hmem]
      rcases hpath with hmem2 | ⟨l, hlne, hchain, t, hlast, ht⟩
      · exact absurd hmem2 hmem
      · cases l with
        | nil => exact absurd rfl hlne
        | cons d l2 =>
          have hedge : d ∈ depsOfL steps s := (List.chain_cons.mp hchain).1
          have hchain2 : List.Chain (EdgeN steps) d l2 := (List.chain_cons.mp hchain).2
          apply flatMap_ne_nil_of_mem _ _ d hedge
          apply ih d (seen ++ [s])
          · have h1 : (seen ++ [s]).length = seen.length + 1 := by simp
            omega
          · rw [List.nodup_append]
            refine ⟨hnd, List.nodup_singleton s, ?_⟩
            intro a ha hb
            rw [List.mem_singleton] at hb
            subst hb
            exact hmem ha
          · intro y hy
            rcases List.mem_append.mp hy with h1 | h1
            · exact hsub y h1
            · rw [List.mem_singleton] at h1
              subst h1
              exact hs
          · exact hclosed s d hedge
          · cases l2 with
            | nil =>
              have htd : d = t := by
                have hl : ([d] : List String).getLast? = some d := rfl
                rw [hl] at hlast
                exact Option.some_inj.mp hlast
              subst htd
              rcases ht with h1 | h1
              · exact Or.inl (List.mem_append_left _ h1)
              · subst h1
                exact Or.inl (List.mem_append_right _ (List.mem_singleton.mpr rfl))
            | cons e l3 =>
              rw [List.getLast?_cons_cons] at hlast
              refine Or.inr ⟨e :: l3, List.cons_ne_nil _ _, hchain2, t, hlast, Or.inl ?_⟩
              rcases ht with h1 | h1
              · exact List.mem_append_left _ h1
              · subst h1
                exact List.mem_append_right _ (List.mem_singleton.mpr rfl)

/-- Soundness of the DFS: assuming the current path is a real dependency
chain (true at the top level, where it is a single node), every recorded
path contains a cycle of the resolved relation: a nonempty node list `c`
that chains back to its own head, all of whose nodes appear on the
recorded path (and hence in the rendered error line). -/
theorem checkCycles_sound (steps : List Step) :
    ∀ (fuel : Nat) (s : String) (seen : List String),
      List.Chain' (EdgeN steps) (seen ++ [s]) →
      ∀ p ∈ checkCycles steps fuel s seen,
        ∃ c, c ≠ [] ∧ List.Chain' (EdgeN steps) (c ++ [c.headI]) ∧ ∀ n ∈ c, n ∈ p := by
  intro fuel
  induction fuel with
  | zero =>
    intro s seen _ p hp
    simp only [checkCycles] at hp
    exact absurd hp (List.not_mem_nil p)
  | succ fuel ih =>
    intro s seen hchain p hp
    simp only [checkCycles] at hp
    by_cases hmem : s ∈ seen
    · rw [if_pos hmem] at hp
      rw [List.mem_singleton] at hp
      subst hp
      obtain ⟨pre, post, hseen⟩ := List.append_of_mem hmem
      refine ⟨s :: post, List.cons_ne_nil _ _, ?_, ?_⟩
      · show List.Chain' (EdgeN steps) ((s :: post) ++ [s])
        rw [hseen] at hchain
        rw [List.append_assoc] at hchain
        exact (List.chain'_append.mp hchain).2.1
      · intro n hn
        rcases List.mem_cons.mp hn with rfl | hn2
        · exact List.mem_append_left _ hmem
        · refine List.mem_append_left _ ?_
          rw [hseen]
          exact List.mem_append_right _ (List.mem_cons_of_mem _ hn2)
    · rw [if_neg hmem] at hp
      obtain ⟨d, hd, hp2⟩ := List.mem_flatMap.mp hp
      have hchain2 : List.Chain' (EdgeN steps) ((seen ++ [s]) ++ [d]) := by
        rw [List.chain'_append]
        refine ⟨hchain, List.chain'_singleton d, ?_⟩
        intro a ha b hb
        simp only [List.getLast?_concat, List.head?_cons, Option.mem_def,
          Option.some.injEq] at ha hb
        subst ha
        subst hb
        exact hd
      exact ih d (seen ++ [s]) hchain2 p hp2

/-- **C3 (amended).**  For a flow spec that passes the fail-fast field
checks (no unknown top-level keys, all steps construct) and whose resolved
dependency relation contains a cycle (a nonempty `EdgeN` chain returning
to its start), construction fails — no partial `Flow` — with the single
aggregated message joining all collected dependency errors and the
`Cyclical dependencies found` line; and at least one recorded path in that
line carries a genuine cycle all of whose steps the path (hence the
message) names.  As stated the claim is false: an unknown-key throw fires
before cycle detection (see the counterexample). -/
theorem cycle_detection (toml : FlowToml) (st : StateJson)
    (h0 : toml.extraKeys = [])
    (steps0 : List Step) (hs0 : mkSteps0 toml st = Except.ok steps0)
    (hcyc : ∃ x l, l ≠ [] ∧ List.Chain (EdgeN (resolvedSteps toml steps0)) x l ∧
      l.getLast? = some x) :
    flowNew toml st = Except.error (String.intercalate "\n"
      (depErrors toml steps0 ++
        [cycleErrorLine (checkAllCycles (resolvedSteps toml steps0))])) ∧
    ∃ p ∈ checkAllCycles (resolvedSteps toml steps0),
      ∃ c, c ≠ [] ∧
        List.Chain' (EdgeN (resolvedSteps toml steps0)) (c ++ [c.headI]) ∧
        ∀ n ∈ c, n ∈ p := by
  obtain ⟨x, l, hlne, hchain, hlast⟩ := hcyc
  have hclosed := resolvedSteps_closed toml steps0
  have hx : x ∈ (resolvedSteps toml steps0).map (fun t => t.name) := by
    cases l with
    | nil => exact absurd rfl hlne
    | cons d l2 => exact edge_source_mem _ _ _ (List.chain_cons.mp hchain).1
  obtain ⟨t, ht, htn⟩ := List.mem_map.mp hx
  have hfind : checkCycles (resolvedSteps toml steps0)
      ((resolvedSteps toml steps0).length + 1) t.name [] ≠ [] := by
    have hteq : (t.name : String) = x := htn
    rw [hteq]
    apply checkCycles_finds (resolvedSteps toml steps0) hclosed
    · rw [List.length_map]
      simp
    · exact List.nodup_nil
    · intro y hy
      cases hy
    · exact hx
    · exact Or.inr ⟨l, hlne, hchain, x, hlast, Or.inr rfl⟩
  have hne : checkAllCycles (resolvedSteps toml steps0) ≠ [] := by
    unfold checkAllCycles
    exact flatMap_ne_nil_of_mem _ _ t ht hfind
  constructor
  · have hek : ensureOnlyKeys toml.extraKeys "at toplevel" = Except.ok () := by
      unfold ensureOnlyKeys
      rw [if_pos h0]
    have herrne : depErrors toml steps0 ++
        [cycleErrorLine (checkAllCycles (resolvedSteps toml steps0))] ≠ [] := by
      intro hc
      exact List.cons_ne_nil _ _ (List.append_eq_nil.mp hc).2
    unfold flowNew
    rw [hek, hs0]
    dsimp only
    rw [if_neg hne, if_neg herrne]
  · obtain ⟨p, hp⟩ := List.exists_mem_of_ne_nil _ hne
    refine ⟨p, hp, ?_⟩
    unfold checkAllCycles at hp
    obtain ⟨u, hu, hp2⟩ := List.mem_flatMap.mp hp
    have hch : List.Chain' (EdgeN (resolvedSteps toml steps0)) ([] ++ [u.name]) :=
      List.chain'_singleton _
    exact checkCycles_sound _ _ u.name [] hch p hp2

/-- Empty persisted state used by the C3 fixtures. -/
def cStC3 : StateJson := { version := 1, steps := [] }

/-- Spec with the dependency cycle `s1 -> s2 -> s1` AND an unknown
top-level key. -/
def cTomlC3 : FlowToml := { extraKeys := ["bogus"], steps := [
  ("s1", { cmd := "x", deps := DepsField.arr ["s2"] }),
  ("s2", { cmd := "y", deps := DepsField.arr ["s1"] })] }

/-- The resolved steps of `cTomlC3` (total by construction). -/
def cStepsC3 : List Step :=
  match mkSteps0 cTomlC3 cStC3 with
  | Except.ok l => resolvedSteps cTomlC3 l
  | Except.error _ => []

/-- Counterexample to C3 as stated: this spec's dependency relation has
the cycle `s1 -> s2 -> s1`, yet construction fails with only the
fail-fast unknown-key message, which is not aggregated with a cycle error
and does not name any step on the cycle. -/
theorem cycle_detection_counterexample :
    List.Chain (EdgeN cStepsC3) "s1" ["s2", "s1"] ∧
    (["s2", "s1"] : List String).getLast? = some "s1" ∧
    flowNew cTomlC3 cStC3 = Except.error "Unexpected key(s) at toplevel: bogus" ∧
    ¬ List.IsInfix ("s1".toList) ("Unexpected key(s) at toplevel: bogus".toList) ∧
    ¬ List.IsInfix ("Cyclical".toList) ("Unexpected key(s) at toplevel: bogus".toList) :=
  ⟨List.chain_cons.mpr ⟨by decide, List.chain_cons.mpr ⟨by decide, List.Chain.nil⟩⟩,
   by rfl, by rfl, by decide, by decide⟩

/-- The `cTomlC3` graph without the offending top-level key. -/
def wTomlC3 : FlowToml := { steps := [
  ("s1", { cmd := "x", deps := DepsField.arr ["s2"] }),
  ("s2", { cmd := "y", deps := DepsField.arr ["s1"] })] }

/-- The constructed steps of `wTomlC3` (total by construction). -/
def wSteps0C3 : List Step :=
  match mkSteps0 wTomlC3 cStC3 with
  | Except.ok l => l
  | Except.error _ => []

/-- Witness for `cycle_detection`: the two-step cycle `s1 -> s2 -> s1`. -/
theorem cycle_detection_witness :
    flowNew wTomlC3 cStC3 = Except.error (String.intercalate "\n"
      (depErrors wTomlC3 wSteps0C3 ++
        [cycleErrorLine (checkAllCycles (resolvedSteps wTomlC3 wSteps0C3))])) ∧
    ∃ p ∈ checkAllCycles (resolvedSteps wTomlC3 wSteps0C3),
      ∃ c, c ≠ [] ∧
        List.Chain' (EdgeN (resolvedSteps wTomlC3 wSteps0C3)) (c ++ [c.headI]) ∧
        ∀ n ∈ c, n ∈ p :=
  cycle_detection wTomlC3 cStC3 rfl wSteps0C3 rfl
    ⟨"s1", ["s2", "s1"], by decide,
      List.chain_cons.mpr ⟨by decide, List.chain_cons.mpr ⟨by decide, List.Chain.nil⟩⟩,
      by rfl⟩

end Miniflow
